import Mathlib

set_option maxHeartbeats 1000000

/-!
Verification development for the lungo in-process document database.

The definitions below embed the data model and the operations of the
repository: the engine operations of engine.go and data.go, the list
utilities Difference and Sort and the mongokit Extract operators of
collection.go.  Helper code of the repository that is referenced by
those files but whose source is not part of the snapshot (the bsonkit
value utilities Get, Put, Compare and CloneList, the mongokit Filter,
Update and Process evaluators and the mongokit Index) is modelled from
the specification; each such definition carries a doc comment starting
with the words: Modelled from the spec.

Go documents are pointers to ordered BSON documents; a document value
is modelled by the inductive type Value below and a document pointer by
the structure Doc, a pair of an address (pointer identity) and the
pointed-to value.  The mutable engine (engine.go holds a pointer
e.data that mutating operations replace, and that dropDatabase and
dropCollection mutate in place) is modelled by an explicit heap from
addresses to catalog values together with the address of the currently
published catalog.
-/

/-- BSON value model (spec section 3): null, booleans, numbers, strings,
ordered documents and arrays.  The numeric variants are collapsed to a
single integer constructor, which is enough for the operations under
study; a document is an ordered list of key-value entries. -/
inductive Value where
  | vnull : Value
  | vbool : Bool → Value
  | vint : Int → Value
  | vstr : String → Value
  | vdoc : List (String × Value) → Value
  | varr : List Value → Value

mutual

/-- Structural equality test for values. -/
def vbeq : Value → Value → Bool
  | .vnull, .vnull => true
  | .vbool a, .vbool b => a == b
  | .vint a, .vint b => a == b
  | .vstr a, .vstr b => a == b
  | .vdoc a, .vdoc b => ebeq a b
  | .varr a, .varr b => lbeq a b
  | _, _ => false

/-- Structural equality test for document entry lists. -/
def ebeq : List (String × Value) → List (String × Value) → Bool
  | [], [] => true
  | (k, v) :: xs, (k2, v2) :: ys => k == k2 && vbeq v v2 && ebeq xs ys
  | _, _ => false

/-- Structural equality test for array element lists. -/
def lbeq : List Value → List Value → Bool
  | [], [] => true
  | x :: xs, y :: ys => vbeq x y && lbeq xs ys
  | _, _ => false

end

mutual

theorem vbeq_iff : ∀ a b : Value, vbeq a b = true ↔ a = b
  | .vnull, b => by cases b <;> simp [vbeq]
  | .vbool a, b => by cases b <;> simp [vbeq]
  | .vint a, b => by cases b <;> simp [vbeq]
  | .vstr a, b => by cases b <;> simp [vbeq]
  | .vdoc a, b => by
      cases b <;> simp [vbeq]
      exact ebeq_iff a _
  | .varr a, b => by
      cases b <;> simp [vbeq]
      exact lbeq_iff a _

theorem ebeq_iff : ∀ a b : List (String × Value), ebeq a b = true ↔ a = b
  | [], [] => by simp [ebeq]
  | (k, v) :: xs, (k2, v2) :: ys => by
      simp [ebeq, vbeq_iff v v2, ebeq_iff xs ys, Bool.and_assoc,
        Bool.and_eq_true, beq_iff_eq, and_assoc]
  | [], _ :: _ => by simp [ebeq]
  | _ :: _, [] => by simp [ebeq]

theorem lbeq_iff : ∀ a b : List Value, lbeq a b = true ↔ a = b
  | [], [] => by simp [lbeq]
  | x :: xs, y :: ys => by
      simp [lbeq, vbeq_iff x y, lbeq_iff xs ys, Bool.and_eq_true]
  | [], _ :: _ => by simp [lbeq]
  | _ :: _, [] => by simp [lbeq]

end

instance : DecidableEq Value := fun a b => decidable_of_iff _ (vbeq_iff a b)

/-- Comparison of natural numbers as an Ordering value. -/
def natOrd (a b : Nat) : Ordering :=
  if a < b then .lt else if b < a then .gt else .eq

/-- Comparison of integers as an Ordering value. -/
def intOrd (a b : Int) : Ordering :=
  if a < b then .lt else if b < a then .gt else .eq

/-- Comparison of booleans: false sorts before true. -/
def boolOrd (a b : Bool) : Ordering := natOrd (cond a 1 0) (cond b 1 0)

/-- Comparison of characters by code point. -/
def charOrd (a b : Char) : Ordering := natOrd a.toNat b.toNat

/-- Lexicographic comparison of character lists. -/
def chListOrd : List Char → List Char → Ordering
  | [], [] => .eq
  | [], _ :: _ => .lt
  | _ :: _, [] => .gt
  | c :: cs, d :: ds =>
      match charOrd c d with
      | .eq => chListOrd cs ds
      | o => o

/-- Byte-order style comparison of strings (spec section 3: strings
compare by byte order); modelled on code points. -/
def strOrd (a b : String) : Ordering := chListOrd a.data b.data

/-- Canonical type rank of a value (spec section 3: a total order over
values is defined by a canonical type rank followed by type-specific
comparison; booleans rank after arrays as in the BSON order). -/
def typeRank : Value → Nat
  | .vnull => 1
  | .vint _ => 2
  | .vstr _ => 3
  | .vdoc _ => 4
  | .varr _ => 5
  | .vbool _ => 6

mutual

/-- Modelled from the spec: bsonkit.Compare, the total order over BSON
values, by canonical type rank and then type-specific comparison;
documents compare element-wise respecting field order, arrays compare
element-wise. -/
def Compare : Value → Value → Ordering
  | .vnull, .vnull => .eq
  | .vbool a, .vbool b => boolOrd a b
  | .vint a, .vint b => intOrd a b
  | .vstr a, .vstr b => strOrd a b
  | .vdoc a, .vdoc b => cmpEntries a b
  | .varr a, .varr b => cmpElems a b
  | a, b => natOrd (typeRank a) (typeRank b)

/-- Element-wise comparison of document entry lists: field name first,
then value, then the remaining entries; shorter documents sort first. -/
def cmpEntries : List (String × Value) → List (String × Value) → Ordering
  | [], [] => .eq
  | [], _ :: _ => .lt
  | _ :: _, [] => .gt
  | (k, v) :: xs, (k2, v2) :: ys =>
      match strOrd k k2 with
      | .eq =>
          match Compare v v2 with
          | .eq => cmpEntries xs ys
          | o => o
      | o => o

/-- Element-wise comparison of array element lists. -/
def cmpElems : List Value → List Value → Ordering
  | [], [] => .eq
  | [], _ :: _ => .lt
  | _ :: _, [] => .gt
  | x :: xs, y :: ys =>
      match Compare x y with
      | .eq => cmpElems xs ys
      | o => o

end

theorem natOrd_swap (a b : Nat) : natOrd b a = (natOrd a b).swap := by
  unfold natOrd
  rcases Nat.lt_trichotomy a b with h | h | h
  · simp [h, Nat.not_lt.mpr (Nat.le_of_lt h), Ordering.swap]
  · simp [h, Ordering.swap]
  · simp [h, Nat.not_lt.mpr (Nat.le_of_lt h), Ordering.swap]

theorem intOrd_swap (a b : Int) : intOrd b a = (intOrd a b).swap := by
  unfold intOrd
  rcases lt_trichotomy a b with h | h | h
  · simp [h, not_lt.mpr (le_of_lt h), Ordering.swap]
  · simp [h, Ordering.swap]
  · simp [h, not_lt.mpr (le_of_lt h), Ordering.swap]

theorem boolOrd_swap (a b : Bool) : boolOrd b a = (boolOrd a b).swap := by
  unfold boolOrd; exact natOrd_swap _ _

theorem charOrd_swap (a b : Char) : charOrd b a = (charOrd a b).swap := by
  unfold charOrd; exact natOrd_swap _ _

theorem chListOrd_swap : ∀ a b : List Char, chListOrd b a = (chListOrd a b).swap
  | [], [] => rfl
  | [], _ :: _ => rfl
  | _ :: _, [] => rfl
  | c :: cs, d :: ds => by
      simp only [chListOrd, charOrd_swap c d]
      cases h : charOrd c d <;>
        simp [Ordering.swap, chListOrd_swap cs ds]

theorem strOrd_swap (a b : String) : strOrd b a = (strOrd a b).swap :=
  chListOrd_swap a.data b.data

theorem natOrd_eq_iff (a b : Nat) : natOrd a b = .eq ↔ a = b := by
  unfold natOrd
  rcases Nat.lt_trichotomy a b with h | h | h
  · simp [h]; omega
  · simp [h]
  · simp [Nat.not_lt.mpr (Nat.le_of_lt h), h]; omega

theorem intOrd_eq_iff (a b : Int) : intOrd a b = .eq ↔ a = b := by
  unfold intOrd
  rcases lt_trichotomy a b with h | h | h
  · simp [h]; omega
  · simp [h]
  · simp [not_lt.mpr (le_of_lt h), h]; omega

theorem boolOrd_eq_iff (a b : Bool) : boolOrd a b = .eq ↔ a = b := by
  cases a <;> cases b <;> simp [boolOrd, natOrd]

theorem charOrd_eq_iff (a b : Char) : charOrd a b = .eq ↔ a = b := by
  unfold charOrd
  rw [natOrd_eq_iff]
  exact ⟨fun h => Char.eq_of_val_eq (UInt32.ext h), fun h => by rw [h]⟩

theorem charOrd_self (a : Char) : charOrd a a = .eq := by
  simp [charOrd, natOrd]

theorem chListOrd_eq_iff : ∀ a b : List Char, chListOrd a b = .eq ↔ a = b
  | [], [] => by simp [chListOrd]
  | [], _ :: _ => by simp [chListOrd]
  | _ :: _, [] => by simp [chListOrd]
  | c :: cs, d :: ds => by
      simp only [chListOrd]
      cases h : charOrd c d
      case eq =>
        have hcd : c = d := (charOrd_eq_iff c d).mp h
        subst hcd
        simp [chListOrd_eq_iff cs ds]
      case lt =>
        simp only [List.cons.injEq]
        constructor
        · intro hab; cases hab
        · rintro ⟨rfl, -⟩
          rw [charOrd_self] at h; cases h
      case gt =>
        simp only [List.cons.injEq]
        constructor
        · intro hab; cases hab
        · rintro ⟨rfl, -⟩
          rw [charOrd_self] at h; cases h

theorem strOrd_eq_iff (a b : String) : strOrd a b = .eq ↔ a = b := by
  unfold strOrd
  rw [chListOrd_eq_iff]
  constructor
  · intro h; cases a; cases b; exact congrArg String.mk h
  · intro h; rw [h]

mutual

theorem Compare_swap : ∀ a b : Value, Compare b a = (Compare a b).swap
  | a, b => by
      cases a <;> cases b <;>
        first
          | rfl
          | (simp only [Compare]; exact boolOrd_swap _ _)
          | (simp only [Compare]; exact intOrd_swap _ _)
          | (simp only [Compare]; exact strOrd_swap _ _)
          | (simp only [Compare]; exact cmpEntries_swap _ _)
          | (simp only [Compare]; exact cmpElems_swap _ _)

theorem cmpEntries_swap : ∀ a b : List (String × Value),
    cmpEntries b a = (cmpEntries a b).swap
  | [], [] => rfl
  | [], _ :: _ => rfl
  | _ :: _, [] => rfl
  | (k, v) :: xs, (k2, v2) :: ys => by
      simp only [cmpEntries]
      rw [strOrd_swap k k2]
      cases h : strOrd k k2
      case lt => rfl
      case gt => rfl
      case eq =>
        simp only [Ordering.swap]
        rw [Compare_swap v v2]
        cases h2 : Compare v v2
        case lt => rfl
        case gt => rfl
        case eq =>
          simp only [Ordering.swap]
          exact cmpEntries_swap xs ys

theorem cmpElems_swap : ∀ a b : List Value, cmpElems b a = (cmpElems a b).swap
  | [], [] => rfl
  | [], _ :: _ => rfl
  | _ :: _, [] => rfl
  | x :: xs, y :: ys => by
      simp only [cmpElems]
      rw [Compare_swap x y]
      cases h : Compare x y
      case lt => rfl
      case gt => rfl
      case eq =>
        simp only [Ordering.swap]
        exact cmpElems_swap xs ys

end

mutual

theorem Compare_eq_iff : ∀ a b : Value, Compare a b = .eq ↔ a = b
  | .vnull, b => by cases b <;> simp [Compare, typeRank, natOrd]
  | .vbool a, b => by
      cases b <;> simp [Compare, typeRank, natOrd, boolOrd_eq_iff]
  | .vint a, b => by
      cases b <;> simp [Compare, typeRank, natOrd, intOrd_eq_iff]
  | .vstr a, b => by
      cases b <;> simp [Compare, typeRank, natOrd, strOrd_eq_iff]
  | .vdoc a, b => by
      cases b <;> simp [Compare, typeRank, natOrd]
      exact cmpEntries_eq_iff a _
  | .varr a, b => by
      cases b <;> simp [Compare, typeRank, natOrd]
      exact cmpElems_eq_iff a _

theorem cmpEntries_eq_iff : ∀ a b : List (String × Value),
    cmpEntries a b = .eq ↔ a = b
  | [], [] => by simp [cmpEntries]
  | [], _ :: _ => by simp [cmpEntries]
  | _ :: _, [] => by simp [cmpEntries]
  | (k, v) :: xs, (k2, v2) :: ys => by
      simp only [cmpEntries]
      cases h : strOrd k k2
      case eq =>
        have hk : k = k2 := (strOrd_eq_iff k k2).mp h
        subst hk
        cases h2 : Compare v v2
        case eq =>
          have hv : v = v2 := (Compare_eq_iff v v2).mp h2
          subst hv
          simp [cmpEntries_eq_iff xs ys]
        case lt =>
          simp only [List.cons.injEq, Prod.mk.injEq]
          constructor
          · intro hab; cases hab
          · rintro ⟨⟨-, rfl⟩, -⟩
            rw [(Compare_eq_iff v v).mpr rfl] at h2; cases h2
        case gt =>
          simp only [List.cons.injEq, Prod.mk.injEq]
          constructor
          · intro hab; cases hab
          · rintro ⟨⟨-, rfl⟩, -⟩
            rw [(Compare_eq_iff v v).mpr rfl] at h2; cases h2
      case lt =>
        simp only [List.cons.injEq, Prod.mk.injEq]
        constructor
        · intro hab; cases hab
        · rintro ⟨⟨rfl, -⟩, -⟩
          rw [(strOrd_eq_iff k k).mpr rfl] at h; cases h
      case gt =>
        simp only [List.cons.injEq, Prod.mk.injEq]
        constructor
        · intro hab; cases hab
        · rintro ⟨⟨rfl, -⟩, -⟩
          rw [(strOrd_eq_iff k k).mpr rfl] at h; cases h

theorem cmpElems_eq_iff : ∀ a b : List Value, cmpElems a b = .eq ↔ a = b
  | [], [] => by simp [cmpElems]
  | [], _ :: _ => by simp [cmpElems]
  | _ :: _, [] => by simp [cmpElems]
  | x :: xs, y :: ys => by
      simp only [cmpElems]
      cases h : Compare x y
      case eq =>
        have hv : x = y := (Compare_eq_iff x y).mp h
        subst hv
        simp [cmpElems_eq_iff xs ys]
      case lt =>
        simp only [List.cons.injEq]
        constructor
        · intro hab; cases hab
        · rintro ⟨rfl, -⟩
          rw [(Compare_eq_iff x x).mpr rfl] at h; cases h
      case gt =>
        simp only [List.cons.injEq]
        constructor
        · intro hab; cases hab
        · rintro ⟨rfl, -⟩
          rw [(Compare_eq_iff x x).mpr rfl] at h; cases h

end

/-- Error kinds surfaced by the modelled operations (spec sections 6 and 7). -/
inductive Err where
  | missingId : Err
  | dupId : Err
  | storeFailed : Err
  | pathConflict : Err
  | badValue : Err
  | emptyList : Err
  | unknownOperator : Err
deriving DecidableEq

/-- Does the string start with a dollar sign (an operator name)? -/
def isDollar (s : String) : Bool :=
  match s.data with
  | c :: _ => c == '$'
  | [] => false

/-- Characters of a namespace name before the first dot; models the Go
expression that splits the namespace name on dots and takes the head. -/
def dbOfAux : List Char → List Char
  | [] => []
  | c :: cs => if c = '.' then [] else c :: dbOfAux cs

/-- The database component of a namespace name. -/
def dbOf (ns : String) : String := String.mk (dbOfAux ns.data)

/-- Splitting a dot-separated path into segments, accumulator form. -/
def splitSegsAux : List Char → List Char → List String
  | acc, [] => [String.mk acc.reverse]
  | acc, c :: cs =>
      if c = '.' then String.mk acc.reverse :: splitSegsAux [] cs
      else splitSegsAux (c :: acc) cs

/-- Split a dot-separated path into its segments. -/
def splitPath (p : String) : List String := splitSegsAux [] p.data

/-- Parse a numeric path segment, accumulator form. -/
def strNatAux : List Char → Nat → Option Nat
  | [], acc => some acc
  | c :: cs, acc =>
      if c.isDigit then strNatAux cs (acc * 10 + (c.toNat - 48)) else none

/-- Parse a numeric path segment (used to index arrays). -/
def strNat? (s : String) : Option Nat :=
  match s.data with
  | [] => none
  | cs => strNatAux cs 0

/-- Look up a field of a document entry list by name. -/
def lookupField (es : List (String × Value)) (k : String) : Option Value :=
  match es.find? (fun e => e.1 == k) with
  | some e => some e.2
  | none => none

/-- Modelled from the spec: bsonkit.Get resolves a dot-separated path
against a value; segments name document fields, numeric segments index
arrays; the Missing sentinel is modelled as none. -/
def getSegs : Value → List String → Option Value
  | v, [] => some v
  | .vdoc es, k :: rest =>
      match lookupField es k with
      | some w => getSegs w rest
      | none => none
  | .varr l, k :: rest =>
      match strNat? k with
      | some i =>
          match l.get? i with
          | some w => getSegs w rest
          | none => none
      | none => none
  | _, _ :: _ => none

/-- Modelled from the spec: bsonkit.Get on a dot-separated path. -/
def Get (doc : Value) (path : String) : Option Value :=
  getSegs doc (splitPath path)

/-- Set or add a field of a document entry list; an existing field is
replaced in place, a new field is prepended or appended. -/
def setField (es : List (String × Value)) (k : String) (v : Value)
    (prepend : Bool) : List (String × Value) :=
  if es.any (fun e => e.1 == k) then
    es.map (fun e => if e.1 == k then (k, v) else e)
  else if prepend then (k, v) :: es else es ++ [(k, v)]

/-- Modelled from the spec: bsonkit.Put walks the path segments,
creating intermediate documents, and fails with a path conflict when an
existing non-document value sits on the path. -/
def putSegs : Value → List String → Value → Bool → Except Err Value
  | _, [], nv, _ => .ok nv
  | .vdoc es, [k], nv, pre => .ok (.vdoc (setField es k nv pre))
  | .vdoc es, k :: k2 :: rest, nv, pre =>
      match lookupField es k with
      | some w =>
          match putSegs w (k2 :: rest) nv pre with
          | .ok w2 => .ok (.vdoc (setField es k w2 pre))
          | .error e => .error e
      | none =>
          match putSegs (.vdoc []) (k2 :: rest) nv pre with
          | .ok w2 => .ok (.vdoc (setField es k w2 pre))
          | .error e => .error e
  | _, _ :: _, _, _ => .error .pathConflict

/-- Modelled from the spec: bsonkit.Put on a dot-separated path. -/
def Put (doc : Value) (path : String) (v : Value) (prepend : Bool) :
    Except Err Value :=
  putSegs doc (splitPath path) v prepend

/-- A document pointer: the Go type bsonkit.Doc is a pointer to a
bson.D value, so two documents with equal contents are still distinct
when their addresses differ.  The address models pointer identity. -/
structure Doc where
  addr : Nat
  content : Value
deriving DecidableEq

/-- bsonkit.Difference from collection.go (package bsonkit): walks a
keeping a cursor j into b; an item equal (pointer identity) to the
current head of b advances the cursor and is skipped, every other item
is copied to the result. -/
def Difference {α : Type} [DecidableEq α] : List α → List α → List α
  | [], _ => []
  | x :: xs, [] => x :: Difference xs []
  | x :: xs, y :: ys =>
      if x = y then Difference xs ys else x :: Difference xs (y :: ys)

/-- Comparison of possibly missing values: the Missing sentinel of
bsonkit sorts below every present value. -/
def cmpOpt : Option Value → Option Value → Ordering
  | none, none => .eq
  | none, some _ => .lt
  | some _, none => .gt
  | some a, some b => Compare a b

theorem cmpOpt_swap (a b : Option Value) : cmpOpt b a = (cmpOpt a b).swap := by
  cases a <;> cases b <;> simp [cmpOpt, Ordering.swap]
  exact Compare_swap _ _

/-- The comparator used by Sort in collection.go (package bsonkit): the
values of the two documents at the sort path are compared with the BSON
total order; with reverse the greater document sorts first. -/
def sortLess (path : String) (reverse : Bool) (x y : Doc) : Bool :=
  if reverse then decide (cmpOpt (Get x.content path) (Get y.content path) = .gt)
  else decide (cmpOpt (Get x.content path) (Get y.content path) = .lt)

/-- Modelled from the spec: the contract of the Go standard library
function sort.Slice that Sort in collection.go calls — the output is a
permutation of the input in which no pair of elements is out of order
with respect to the less function.  The Go documentation states that
this sort is not guaranteed to be stable, so the result is specified as
a relation between input and output rather than a function. -/
def SortRel (path : String) (reverse : Bool) (input output : List Doc) : Prop :=
  output.Perm input ∧
  List.Pairwise (fun x y => sortLess path reverse y x = false) output

theorem diff_cons_notmem {α : Type} [DecidableEq α] (x : α) (xs b : List α)
    (hx : x ∉ b) : Difference (x :: xs) b = x :: Difference xs b := by
  cases b with
  | nil => rfl
  | cons y ys =>
      have hxy : x ≠ y := fun h => hx (h ▸ List.mem_cons_self y ys)
      simp [Difference, hxy]

theorem diff_cons_cons {α : Type} [DecidableEq α] (x : α) (xs ys : List α) :
    Difference (x :: xs) (x :: ys) = Difference xs ys := by
  simp [Difference]

theorem difference_spec_aux {α : Type} [DecidableEq α] (a b : List α)
    (hsub : b.Sublist a) (hnd : a.Nodup) :
    Difference a b = a.filter (fun x => decide (x ∉ b)) ∧
    (Difference a b).length = a.length - b.length ∧
    a.filter (fun x => decide (x ∈ b)) = b := by
  induction hsub with
  | slnil => simp [Difference]
  | @cons l₁ l₂ x hsub ih =>
      have hx : x ∉ l₂ := (List.nodup_cons.mp hnd).1
      have hnd2 : l₂.Nodup := (List.nodup_cons.mp hnd).2
      obtain ⟨ih1, ih2, ih3⟩ := ih hnd2
      have hxb : x ∉ l₁ := fun hm => hx (hsub.subset hm)
      have hlen : l₁.length ≤ l₂.length := hsub.length_le
      have hd : Difference (x :: l₂) l₁ = x :: Difference l₂ l₁ :=
        diff_cons_notmem x l₂ l₁ hxb
      refine ⟨?_, ?_, ?_⟩
      · rw [hd, ih1]
        simp [List.filter_cons, hxb]
      · rw [hd]
        simp only [List.length_cons]
        omega
      · simp [List.filter_cons, hxb, ih3]
  | @cons₂ l₁ l₂ x hsub ih =>
      have hx : x ∉ l₂ := (List.nodup_cons.mp hnd).1
      have hnd2 : l₂.Nodup := (List.nodup_cons.mp hnd).2
      obtain ⟨ih1, ih2, ih3⟩ := ih hnd2
      have hlen : l₁.length ≤ l₂.length := hsub.length_le
      refine ⟨?_, ?_, ?_⟩
      · rw [diff_cons_cons, ih1]
        have hcong : ∀ z ∈ l₂,
            (decide (z ∉ l₁) : Bool) = (decide (z ∉ x :: l₁) : Bool) := by
          intro z hz
          have hzx : z ≠ x := fun h => hx (h ▸ hz)
          simp [List.mem_cons, hzx]
        rw [List.filter_congr hcong]
        simp [List.filter_cons]
      · rw [diff_cons_cons]
        simp only [List.length_cons]
        omega
      · have hcong : ∀ z ∈ l₂,
            (decide (z ∈ x :: l₁) : Bool) = (decide (z ∈ l₁) : Bool) := by
          intro z hz
          have hzx : z ≠ x := fun h => hx (h ▸ hz)
          simp [List.mem_cons, hzx]
        simp only [List.filter_cons]
        rw [List.filter_congr hcong, ih3]
        simp

/-- C8 (amended): on duplicate-free lists, when the elements of b occur
in a in order (b is a sublist of a), Difference a b returns exactly the
elements of a that are not in b in their order in a, its length is the
length of a minus the length of b, and the elements of a that are in b
are exactly b in position, so interleaving them back reconstructs a. -/
theorem c8_difference_of_nodup_sublist (a b : List Doc)
    (hsub : b.Sublist a) (hnd : a.Nodup) :
    Difference a b = a.filter (fun x => decide (x ∉ b)) ∧
    (Difference a b).length = a.length - b.length ∧
    a.filter (fun x => decide (x ∈ b)) = b :=
  difference_spec_aux a b hsub hnd

/-- A document pointer used in the Difference counterexample. -/
def dupDoc : Doc := ⟨0, .vnull⟩

/-- C8 (counterexample): when the same document pointer occurs twice in
a, the hypothesis of the claim (the elements of b occur in a in order)
holds, yet Difference a b is not the list of elements of a that are not
in b: it keeps the second occurrence of the pointer even though the
pointer is in b. -/
theorem c8_counterexample :
    [dupDoc].Sublist [dupDoc, dupDoc] ∧
    Difference [dupDoc, dupDoc] [dupDoc] = [dupDoc] ∧
    Difference [dupDoc, dupDoc] [dupDoc] ≠
      ([dupDoc, dupDoc]).filter (fun x => decide (x ∉ [dupDoc])) := by
  refine ⟨by decide, by decide, by decide⟩

/-- Documents with equal sort keys and distinct identities. -/
def sortDocA : Doc := ⟨1, .vdoc [("k", .vint 1), ("t", .vint 1)]⟩

/-- Second document with the same sort key. -/
def sortDocB : Doc := ⟨2, .vdoc [("k", .vint 1), ("t", .vint 2)]⟩

/-- C7 (counterexample): the sort contract of the source (sort.Slice
with the comparator of Sort, which the Go documentation does not
guarantee to be stable) admits an output for the input consisting of
two documents with equal sort keys in which their relative order is
reversed, so stability fails. -/
theorem c7_counterexample :
    SortRel ("k") false [sortDocA, sortDocB] [sortDocB, sortDocA] ∧
    cmpOpt (Get sortDocA.content ("k")) (Get sortDocB.content ("k")) = .eq ∧
    sortDocA ≠ sortDocB ∧
    [sortDocB, sortDocA] ≠ [sortDocA, sortDocB] := by
  refine ⟨⟨List.Perm.swap sortDocA sortDocB [], by decide⟩,
    by decide, by decide, by decide⟩

/-- C7 (amended): every output admitted by Sort is a permutation of the
input that is nondecreasing (nonincreasing when reverse) in the BSON
order of the values at the sort path; stability is not guaranteed. -/
theorem c7_sort_sorted_permutation (path : String) (rev : Bool)
    (inp out : List Doc) (h : SortRel path rev inp out) :
    out.Perm inp ∧
    (rev = false →
      out.Pairwise (fun x y =>
        cmpOpt (Get x.content path) (Get y.content path) ≠ .gt)) ∧
    (rev = true →
      out.Pairwise (fun x y =>
        cmpOpt (Get x.content path) (Get y.content path) ≠ .lt)) := by
  refine ⟨h.1, ?_, ?_⟩
  · intro hrev
    subst hrev
    refine h.2.imp ?_
    intro x y hxy hgt
    have hne : cmpOpt (Get y.content path) (Get x.content path) ≠ .lt := by
      simpa [sortLess] using hxy
    apply hne
    rw [cmpOpt_swap, hgt]
    rfl
  · intro hrev
    subst hrev
    refine h.2.imp ?_
    intro x y hxy hlt
    have hne : cmpOpt (Get y.content path) (Get x.content path) ≠ .gt := by
      simpa [sortLess] using hxy
    apply hne
    rw [cmpOpt_swap, hlt]
    rfl

/-- C7 (witness): the amended sort theorem applied to a concrete sorted
output of a concrete input list. -/
theorem c7_witness :
    ([sortDocB, sortDocA] : List Doc).Perm [sortDocA, sortDocB] ∧
    (false = false →
      List.Pairwise (fun x y : Doc =>
        cmpOpt (Get x.content ("k")) (Get y.content ("k")) ≠ .gt)
        [sortDocB, sortDocA]) ∧
    (false = true →
      List.Pairwise (fun x y : Doc =>
        cmpOpt (Get x.content ("k")) (Get y.content ("k")) ≠ .lt)
        [sortDocB, sortDocA]) :=
  c7_sort_sorted_permutation ("k") false [sortDocA, sortDocB]
    [sortDocB, sortDocA] ⟨List.Perm.swap sortDocA sortDocB [], by decide⟩

/-- Documents used in the Difference witness. -/
def diffDocA : Doc := ⟨3, .vint 1⟩

/-- Second document used in the Difference witness. -/
def diffDocB : Doc := ⟨4, .vint 2⟩

/-- Third document used in the Difference witness. -/
def diffDocC : Doc := ⟨5, .vint 3⟩

/-- C8 (witness): the amended Difference theorem applied to concrete
duplicate-free lists. -/
theorem c8_witness :
    Difference [diffDocA, diffDocB, diffDocC] [diffDocB] =
      ([diffDocA, diffDocB, diffDocC]).filter
        (fun x => decide (x ∉ [diffDocB])) ∧
    (Difference [diffDocA, diffDocB, diffDocC] [diffDocB]).length =
      ([diffDocA, diffDocB, diffDocC] : List Doc).length -
        ([diffDocB] : List Doc).length ∧
    ([diffDocA, diffDocB, diffDocC]).filter
        (fun x => decide (x ∈ [diffDocB])) = [diffDocB] :=
  c8_difference_of_nodup_sublist [diffDocA, diffDocB, diffDocC] [diffDocB]
    (by decide) (by decide)

/-- mongokit extractEq from collection.go: a bare equality or an eq
operator records its value at the path in the defaults document. -/
def extractEq (doc : Value) (path : String) (v : Value) : Except Err Value :=
  Put doc path v false

/-- mongokit extractIn from collection.go: the operand must be a list;
a single-element list behaves like an equality, any other length
contributes nothing. -/
def extractIn (doc : Value) (path : String) (v : Value) : Except Err Value :=
  match v with
  | .varr [w] => Put doc path w false
  | .varr _ => .ok doc
  | _ => .error .badValue

mutual

/-- Modelled from the spec: the mongokit Process driver used by Extract
walks the query document entry by entry, threading the accumulated
defaults document; an entry is dispatched by processPair. -/
def processQuery : Value → List (String × Value) → Bool → Except Err Value
  | doc, [], _ => .ok doc
  | doc, (k, v) :: rest, root =>
      match processPair doc k v root with
      | .ok doc2 => processQuery doc2 rest root
      | .error e => .error e
termination_by _ q _ => sizeOf q

/-- Modelled from the spec: a name starting with a dollar dispatches at
the root to the top-level extract registry (extractAnd and extractOr,
anything else is an unknown operator); any other name is a path whose
value is either a document of expression operators (first field name
starts with a dollar) or a plain value treated as a bare equality. -/
def processPair : Value → String → Value → Bool → Except Err Value
  | doc, k, v, root =>
      if isDollar k then
        if root then
          if k == "$and" then extractAnd doc v
          else if k == "$or" then extractOr doc v
          else .error .unknownOperator
        else .error .unknownOperator
      else
        match v with
        | .vdoc ((op, w) :: ops) =>
            if isDollar op then processOps doc k ((op, w) :: ops)
            else extractEq doc k v
        | _ => extractEq doc k v
termination_by _ _ v _ => sizeOf v + 1

/-- Modelled from the spec: the expression extract registry contains
only the empty name (bare equality), eq and in; an unknown expression
operator is an error. -/
def processOps : Value → String → List (String × Value) → Except Err Value
  | doc, _, [] => .ok doc
  | doc, path, (op, w) :: ops =>
      if op == "$eq" then
        match extractEq doc path w with
        | .ok doc2 => processOps doc2 path ops
        | .error e => .error e
      else if op == "$in" then
        match extractIn doc path w with
        | .ok doc2 => processOps doc2 path ops
        | .error e => .error e
      else .error .unknownOperator
termination_by _ _ ops => sizeOf ops

/-- mongokit extractAnd from collection.go: the operand must be a list,
an empty list is an error, and every element must be a document, each
processed into the accumulated defaults document. -/
def extractAnd : Value → Value → Except Err Value
  | _, .varr [] => .error .emptyList
  | doc, .varr (i :: is) => processItems doc (i :: is)
  | _, _ => .error .badValue
termination_by _ v => sizeOf v

/-- mongokit extractOr from collection.go: the operand must be a list,
an empty list is an error, a list with more than one element
contributes nothing, and a single-element list is processed like a
conjunction. -/
def extractOr : Value → Value → Except Err Value
  | _, .varr [] => .error .emptyList
  | doc, .varr [item] => processItems doc [item]
  | doc, .varr (_ :: _ :: _) => .ok doc
  | _, _ => .error .badValue
termination_by _ v => sizeOf v

/-- The iteration of extractAnd and extractOr over their list items;
every item must be a document and is processed with root set to
false. -/
def processItems : Value → List Value → Except Err Value
  | doc, [] => .ok doc
  | doc, .vdoc q :: rest =>
      match processQuery doc q false with
      | .ok doc2 => processItems doc2 rest
      | .error e => .error e
  | _, _ :: _ => .error .badValue
termination_by _ items => sizeOf items

end

/-- mongokit Extract from collection.go: produce the defaults document
of a match filter by processing it with the extract registries,
starting from an empty document. -/
def Extract (query : Value) : Except Err Value :=
  match query with
  | .vdoc q => processQuery (.vdoc []) q true
  | _ => .error .badValue

/-- Is a path plain: not an operator name and free of dots. -/
def isPlainPath (p : String) : Bool :=
  !isDollar p && p.data.all (fun c => !(c == '.'))

/-- Is a value not an operator expression document (its first field
name, if any, does not start with a dollar)? -/
def notOpDoc : Value → Bool
  | .vdoc ((op, _) :: _) => !isDollar op
  | _ => true

/-- Claim C9 stated in the words of the spec: the relation between a
single filter entry in expression position and the list of defaults it
contributes — a bare equality or an eq operator contributes its value
at the path, a single-element in contributes its element, and an in
with any other length contributes nothing. -/
inductive ExprForm : String × Value → List (String × Value) → Prop where
  | bare (p : String) (v : Value) (hp : isPlainPath p = true)
      (hv : notOpDoc v = true) : ExprForm (p, v) [(p, v)]
  | eqOp (p : String) (w : Value) (hp : isPlainPath p = true) :
      ExprForm (p, .vdoc [("$eq", w)]) [(p, w)]
  | inOne (p : String) (w : Value) (hp : isPlainPath p = true) :
      ExprForm (p, .vdoc [("$in", .varr [w])]) [(p, w)]
  | inMany (p : String) (ws : List Value) (hp : isPlainPath p = true)
      (hlen : ws.length ≠ 1) :
      ExprForm (p, .vdoc [("$in", .varr ws)]) []

/-- The constraints contributed by a list of expression entries, in
order. -/
inductive EntriesForm :
    List (String × Value) → List (String × Value) → Prop where
  | nil : EntriesForm [] []
  | cons (e : String × Value) (ce : List (String × Value))
      (q : List (String × Value)) (cq : List (String × Value)) :
      ExprForm e ce → EntriesForm q cq → EntriesForm (e :: q) (ce ++ cq)

/-- A conjunct item: a document of expression entries. -/
inductive ItemForm : Value → List (String × Value) → Prop where
  | mk (q : List (String × Value)) (cs : List (String × Value)) :
      EntriesForm q cs → ItemForm (.vdoc q) cs

/-- The constraints contributed by the items of a conjunction. -/
inductive ItemsForm : List Value → List (String × Value) → Prop where
  | nil : ItemsForm [] []
  | cons (i : Value) (ci : List (String × Value)) (l : List Value)
      (cl : List (String × Value)) :
      ItemForm i ci → ItemsForm l cl → ItemsForm (i :: l) (ci ++ cl)

/-- Claim C9 stated in the words of the spec, top level: an expression
entry contributes its constraints, a conjunction contributes the
constraints of all its items, a disjunction contributes the
constraints of its single item when it has exactly one and nothing
when it has more than one. -/
inductive TopForm : String × Value → List (String × Value) → Prop where
  | expr (p : String) (v : Value) (cs : List (String × Value)) :
      ExprForm (p, v) cs → TopForm (p, v) cs
  | andList (items : List Value) (cs : List (String × Value))
      (hne : items ≠ []) : ItemsForm items cs →
      TopForm ("$and", .varr items) cs
  | orOne (item : Value) (cs : List (String × Value)) :
      ItemForm item cs → TopForm ("$or", .varr [item]) cs
  | orMany (items : List Value) (h : 2 ≤ items.length) :
      TopForm ("$or", .varr items) []

/-- The constraints contributed by a whole filter document. -/
inductive QueryForm :
    List (String × Value) → List (String × Value) → Prop where
  | nil : QueryForm [] []
  | cons (e : String × Value) (ce : List (String × Value))
      (q : List (String × Value)) (cq : List (String × Value)) :
      TopForm e ce → QueryForm q cq → QueryForm (e :: q) (ce ++ cq)

theorem plain_not_dollar (p : String) (h : isPlainPath p = true) :
    isDollar p = false := by
  simp [isPlainPath] at h
  exact h.1

theorem splitSegsAux_no_dot (cs : List Char) :
    ∀ acc : List Char, (∀ c ∈ cs, c ≠ '.') →
    splitSegsAux acc cs = [String.mk (acc.reverse ++ cs)] := by
  induction cs with
  | nil => intro acc _; simp [splitSegsAux]
  | cons c cs ih =>
      intro acc h
      have hc : c ≠ '.' := h c (List.mem_cons_self _ _)
      rw [splitSegsAux, if_neg hc, ih (c :: acc)
        (fun d hd => h d (List.mem_cons_of_mem _ hd))]
      simp

theorem splitPath_plain (p : String) (h : isPlainPath p = true) :
    splitPath p = [p] := by
  unfold splitPath
  rw [splitSegsAux_no_dot]
  · simp
  · intro c hc
    simp [isPlainPath, List.all_eq_true] at h
    exact h.2 c hc

theorem put_fresh (es : List (String × Value)) (k : String) (v : Value)
    (hk : isPlainPath k = true) (hfresh : ∀ e ∈ es, e.1 ≠ k) :
    Put (.vdoc es) k v false = .ok (.vdoc (es ++ [(k, v)])) := by
  unfold Put
  rw [splitPath_plain k hk]
  have hany : es.any (fun e => e.1 == k) = false := by
    rw [List.any_eq_false]
    intro e he
    simpa using hfresh e he
  simp [putSegs, setField, hany]

theorem nodup_parts_ne {α : Type} {l₁ l₂ : List α} (h : (l₁ ++ l₂).Nodup) :
    ∀ a ∈ l₁, ∀ b ∈ l₂, a ≠ b := by
  intro a ha b hb heq
  exact List.disjoint_of_nodup_append h ha (heq ▸ hb)

theorem exprForm_processPair (acc : List (String × Value)) (p : String)
    (v : Value) (cs : List (String × Value)) (root : Bool)
    (h : ExprForm (p, v) cs)
    (hfresh : ∀ c ∈ cs, ∀ e ∈ acc, e.1 ≠ c.1) :
    processPair (.vdoc acc) p v root = .ok (.vdoc (acc ++ cs)) := by
  cases h with
  | bare p v hp hv =>
      have hpd := plain_not_dollar p hp
      have hput := put_fresh acc p v hp
        (fun e he => hfresh (p, v) (by simp) e he)
      cases v with
      | vdoc es =>
          cases es with
          | nil => simpa [processPair, hpd, extractEq] using hput
          | cons ev ops =>
              obtain ⟨op, w⟩ := ev
              have hop : isDollar op = false := by
                simpa [notOpDoc] using hv
              simpa [processPair, hpd, hop, extractEq] using hput
      | vnull => simpa [processPair, hpd, extractEq] using hput
      | vbool b => simpa [processPair, hpd, extractEq] using hput
      | vint n => simpa [processPair, hpd, extractEq] using hput
      | vstr s => simpa [processPair, hpd, extractEq] using hput
      | varr l => simpa [processPair, hpd, extractEq] using hput
  | eqOp p w hp =>
      have hpd := plain_not_dollar p hp
      have hput := put_fresh acc p w hp
        (fun e he => hfresh (p, w) (by simp) e he)
      simp only [processPair, hpd, Bool.false_eq_true, if_false,
        show isDollar ("$eq") = true from rfl, if_true]
      simp only [processOps, show (("$eq" : String) == "$eq") = true from rfl,
        if_true, extractEq]
      rw [hput]
  | inOne p w hp =>
      have hpd := plain_not_dollar p hp
      have hput := put_fresh acc p w hp
        (fun e he => hfresh (p, w) (by simp) e he)
      simp only [processPair, hpd, Bool.false_eq_true, if_false,
        show isDollar ("$in") = true from rfl, if_true]
      simp only [processOps, show (("$in" : String) == "$eq") = false from rfl,
        show (("$in" : String) == "$in") = true from rfl, if_true,
        Bool.false_eq_true, if_false, extractIn]
      rw [hput]
  | inMany p ws hp hlen =>
      have hpd := plain_not_dollar p hp
      simp only [processPair, hpd, Bool.false_eq_true, if_false,
        show isDollar ("$in") = true from rfl, if_true]
      simp only [processOps, show (("$in" : String) == "$eq") = false from rfl,
        show (("$in" : String) == "$in") = true from rfl, if_true,
        Bool.false_eq_true, if_false]
      match ws, hlen with
      | [], _ => simp [extractIn, processOps]
      | w :: w2 :: ws, _ => simp [extractIn, processOps]
      | [w], hlen => exact absurd (by simp) hlen

theorem exprForm_plain {e : String × Value} {cs : List (String × Value)}
    (h : ExprForm e cs) : ∀ c ∈ cs, isPlainPath c.1 = true := by
  cases h <;> simp_all

theorem entriesForm_processQuery {q cs : List (String × Value)}
    (h : EntriesForm q cs) :
    ∀ acc : List (String × Value),
    ((acc ++ cs).map Prod.fst).Nodup →
    processQuery (.vdoc acc) q false = .ok (.vdoc (acc ++ cs)) := by
  induction h with
  | nil => intro acc _; simp [processQuery]
  | cons e ce q cq he _ ih =>
      intro acc hnd
      obtain ⟨p, v⟩ := e
      have hfresh : ∀ c ∈ ce, ∀ x ∈ acc, x.1 ≠ c.1 := by
        intro c hc x hx
        have := nodup_parts_ne (by simpa using hnd) x.1 (by
          simp only [List.mem_map]; exact ⟨x, hx, rfl⟩) c.1 (by
          simp only [List.map_append, List.mem_append, List.mem_map]
          exact Or.inl ⟨c, hc, rfl⟩)
        exact this
      rw [processQuery, exprForm_processPair acc p v ce false he hfresh]
      have hstep := ih (acc ++ ce) (by simpa [List.append_assoc] using hnd)
      simpa [List.append_assoc] using hstep

theorem itemsForm_processItems {l : List Value} {cs : List (String × Value)}
    (h : ItemsForm l cs) :
    ∀ acc : List (String × Value),
    ((acc ++ cs).map Prod.fst).Nodup →
    processItems (.vdoc acc) l = .ok (.vdoc (acc ++ cs)) := by
  induction h with
  | nil => intro acc _; simp [processItems]
  | cons i ci l cl hi _ ih =>
      intro acc hnd
      cases hi with
      | mk qi ci hq =>
          have hnd1 : ((acc ++ ci).map Prod.fst).Nodup := by
            have hsub : ((acc ++ ci).map Prod.fst).Sublist
                (((acc ++ ci) ++ cl).map Prod.fst) := by
              simp only [List.map_append]
              exact List.sublist_append_left _ _
            exact List.Nodup.sublist hsub
              (by simpa [List.append_assoc] using hnd)
          rw [processItems, entriesForm_processQuery hq acc hnd1]
          have hstep := ih (acc ++ ci)
            (by simpa [List.append_assoc] using hnd)
          simpa [List.append_assoc] using hstep

theorem topForm_processPair (acc : List (String × Value))
    {e : String × Value} {cs : List (String × Value)} (h : TopForm e cs)
    (hnd : ((acc ++ cs).map Prod.fst).Nodup) :
    processPair (.vdoc acc) e.1 e.2 true = .ok (.vdoc (acc ++ cs)) := by
  cases h with
  | expr p v cs he =>
      refine exprForm_processPair acc p v cs true he ?_
      intro c hc x hx
      exact nodup_parts_ne (by simpa using hnd) x.1 (by
        simp only [List.mem_map]; exact ⟨x, hx, rfl⟩) c.1 (by
        simp only [List.mem_map]; exact ⟨c, hc, rfl⟩)
  | andList items cs hne hi =>
      simp only [processPair, show isDollar ("$and") = true from rfl, if_true,
        show (("$and" : String) == "$and") = true from rfl]
      match items, hne with
      | i :: is, _ =>
          simp only [extractAnd]
          exact itemsForm_processItems hi acc hnd
  | orOne item cs hi =>
      simp only [processPair, show isDollar ("$or") = true from rfl, if_true,
        show (("$or" : String) == "$and") = false from rfl,
        show (("$or" : String) == "$or") = true from rfl,
        Bool.false_eq_true, if_false]
      simp only [extractOr]
      have h2 : ItemsForm [item] (cs ++ []) :=
        ItemsForm.cons item cs [] [] hi ItemsForm.nil
      have h3 := itemsForm_processItems h2 acc (by simpa using hnd)
      simpa using h3
  | orMany items hlen =>
      simp only [processPair, show isDollar ("$or") = true from rfl, if_true,
        show (("$or" : String) == "$and") = false from rfl,
        show (("$or" : String) == "$or") = true from rfl,
        Bool.false_eq_true, if_false]
      match items, hlen with
      | a :: b :: rest, _ =>
          simp [extractOr]

theorem queryForm_processQuery {q cs : List (String × Value)}
    (h : QueryForm q cs) :
    ∀ acc : List (String × Value),
    ((acc ++ cs).map Prod.fst).Nodup →
    processQuery (.vdoc acc) q true = .ok (.vdoc (acc ++ cs)) := by
  induction h with
  | nil => intro acc _; simp [processQuery]
  | cons e ce q cq he _ ih =>
      intro acc hnd
      obtain ⟨p, v⟩ := e
      have hnd1 : ((acc ++ ce).map Prod.fst).Nodup := by
        have hsub : ((acc ++ ce).map Prod.fst).Sublist
            (((acc ++ ce) ++ cq).map Prod.fst) := by
          simp only [List.map_append]
          exact List.sublist_append_left _ _
        exact List.Nodup.sublist hsub (by simpa [List.append_assoc] using hnd)
      have hpair := topForm_processPair acc he hnd1
      simp only at hpair
      rw [processQuery, hpair]
      have hstep := ih (acc ++ ce) (by simpa [List.append_assoc] using hnd)
      simpa [List.append_assoc] using hstep

/-- C9: for a filter built from bare equalities, eq operators and
single- or many-element in operators at top level or inside a
conjunction, with disjunctions contributing only single branches, and
whose constrained paths are distinct plain paths, Extract returns
exactly the defaults document of those constraints; an empty
conjunction or disjunction list is an error. -/
theorem c9_extract_characterization :
    (∀ q cs : List (String × Value), QueryForm q cs →
        (cs.map Prod.fst).Nodup → Extract (.vdoc q) = .ok (.vdoc cs)) ∧
    Extract (.vdoc [("$and", .varr [])]) = .error .emptyList ∧
    Extract (.vdoc [("$or", .varr [])]) = .error .emptyList := by
  refine ⟨?_, ?_, ?_⟩
  · intro q cs h hnd
    have := queryForm_processQuery h [] (by simpa using hnd)
    simpa [Extract] using this
  · simp [Extract, processQuery, processPair, extractAnd, isDollar]
  · simp [Extract, processQuery, processPair, extractOr, isDollar]

/-- C9 (witness): the Extract characterization applied to a concrete
filter exercising every form: a bare equality, an eq operator, a
single-element in, a two-element in, a conjunction, a single-branch
disjunction and a two-branch disjunction. -/
theorem c9_witness :
    Extract (.vdoc
      [("a", .vint 1),
       ("b", .vdoc [("$eq", .vint 2)]),
       ("c", .vdoc [("$in", .varr [.vint 3])]),
       ("d", .vdoc [("$in", .varr [.vint 4, .vint 5])]),
       ("$and", .varr [.vdoc [("e", .vint 6)]]),
       ("$or", .varr [.vdoc [("f", .vint 7)]]),
       ("$or", .varr [.vdoc [("g", .vint 8)], .vdoc [("h", .vint 9)]])]) =
    .ok (.vdoc [("a", .vint 1), ("b", .vint 2), ("c", .vint 3),
      ("e", .vint 6), ("f", .vint 7)]) := by
  have ha : ExprForm (("a"), Value.vint 1) [(("a"), Value.vint 1)] :=
    ExprForm.bare ("a") (.vint 1) (by decide) (by decide)
  have hb : ExprForm (("b"), Value.vdoc [("$eq", .vint 2)])
      [(("b"), Value.vint 2)] :=
    ExprForm.eqOp ("b") (.vint 2) (by decide)
  have hc : ExprForm (("c"), Value.vdoc [("$in", .varr [.vint 3])])
      [(("c"), Value.vint 3)] :=
    ExprForm.inOne ("c") (.vint 3) (by decide)
  have hd : ExprForm (("d"), Value.vdoc [("$in", .varr [.vint 4, .vint 5])])
      [] :=
    ExprForm.inMany ("d") [.vint 4, .vint 5] (by decide) (by decide)
  have he : ExprForm (("e"), Value.vint 6) [(("e"), Value.vint 6)] :=
    ExprForm.bare ("e") (.vint 6) (by decide) (by decide)
  have hf : ExprForm (("f"), Value.vint 7) [(("f"), Value.vint 7)] :=
    ExprForm.bare ("f") (.vint 7) (by decide) (by decide)
  have hand : TopForm (("$and"), Value.varr [.vdoc [("e", .vint 6)]])
      [(("e"), Value.vint 6)] :=
    TopForm.andList [.vdoc [("e", .vint 6)]] [(("e"), Value.vint 6)]
      (by decide)
      (ItemsForm.cons _ _ [] []
        (ItemForm.mk _ _ (EntriesForm.cons _ _ [] [] he EntriesForm.nil))
        ItemsForm.nil)
  have hor1 : TopForm (("$or"), Value.varr [.vdoc [("f", .vint 7)]])
      [(("f"), Value.vint 7)] :=
    TopForm.orOne (.vdoc [("f", .vint 7)]) [(("f"), Value.vint 7)]
      (ItemForm.mk _ _ (EntriesForm.cons _ _ [] [] hf EntriesForm.nil))
  have hor2 : TopForm
      (("$or"), Value.varr [.vdoc [("g", .vint 8)], .vdoc [("h", .vint 9)]])
      [] :=
    TopForm.orMany [.vdoc [("g", .vint 8)], .vdoc [("h", .vint 9)]]
      (by decide)
  have hq : QueryForm
      [("a", .vint 1),
       ("b", .vdoc [("$eq", .vint 2)]),
       ("c", .vdoc [("$in", .varr [.vint 3])]),
       ("d", .vdoc [("$in", .varr [.vint 4, .vint 5])]),
       ("$and", .varr [.vdoc [("e", .vint 6)]]),
       ("$or", .varr [.vdoc [("f", .vint 7)]]),
       ("$or", .varr [.vdoc [("g", .vint 8)], .vdoc [("h", .vint 9)]])]
      [("a", .vint 1), ("b", .vint 2), ("c", .vint 3),
       ("e", .vint 6), ("f", .vint 7)] :=
    QueryForm.cons _ _ _ _ (TopForm.expr _ _ _ ha)
      (QueryForm.cons _ _ _ _ (TopForm.expr _ _ _ hb)
        (QueryForm.cons _ _ _ _ (TopForm.expr _ _ _ hc)
          (QueryForm.cons _ _ _ _ (TopForm.expr _ _ _ hd)
            (QueryForm.cons _ _ _ _ hand
              (QueryForm.cons _ _ _ _ hor1
                (QueryForm.cons _ _ _ _ hor2 QueryForm.nil))))))
  exact c9_extract_characterization.1 _ _ hq (by decide)

/-- Modelled from the spec: value equality used by the match operators;
documents compare deeply, and a stored array also matches when any of
its elements equals the target. -/
def matchValue (stored target : Value) : Bool :=
  decide (stored = target) ||
    (match stored with
     | .varr l => decide (target ∈ l)
     | _ => false)

/-- Modelled from the spec: does the document satisfy an equality
condition at a path? -/
def matchEqCond (content : Value) (path : String) (v : Value) : Bool :=
  match getSegs content (splitPath path) with
  | some x => matchValue x v
  | none => false

/-- Modelled from the spec: the expression match operators of the
fragment used here — a document of operator entries is a conjunction of
conditions on the path; only the eq operator is modelled and any other
operator is an unknown operator error. -/
def matchOpsM : Value → String → List (String × Value) → Except Err Bool
  | _, _, [] => .ok true
  | content, path, (op, w) :: ops =>
      if op == "$eq" then
        if matchEqCond content path w then matchOpsM content path ops
        else .ok false
      else .error .unknownOperator

/-- Modelled from the spec: one filter entry — a path mapped to an
operator document dispatches to the expression operators, any other
value is a bare equality; top-level operator names are outside the
modelled fragment and error. -/
def matchPairM (content : Value) (k : String) (v : Value) :
    Except Err Bool :=
  if isDollar k then .error .unknownOperator
  else
    match v with
    | .vdoc ((op, w) :: ops) =>
        if isDollar op then matchOpsM content k ((op, w) :: ops)
        else .ok (matchEqCond content k v)
    | _ => .ok (matchEqCond content k v)

/-- Modelled from the spec: a filter document is a conjunction of its
entries; the empty filter matches every document. -/
def matchQuery (content : Value) : List (String × Value) → Except Err Bool
  | [] => .ok true
  | (k, v) :: rest =>
      match matchPairM content k v with
      | .ok true => matchQuery content rest
      | .ok false => .ok false
      | .error e => .error e

/-- Modelled from the spec: mongokit.Filter walks the documents in
order collecting the matching ones together with their positions until
the limit is reached; limit zero means unbounded. -/
def filterAux (q : List (String × Value)) (limit : Nat) :
    List Doc → Nat → Nat → Except Err (List (Nat × Doc))
  | [], _, _ => .ok []
  | d :: ds, i, got =>
      if 0 < limit ∧ limit ≤ got then .ok []
      else
        match matchQuery d.content q with
        | .error e => .error e
        | .ok true =>
            match filterAux q limit ds (i + 1) (got + 1) with
            | .ok ps => .ok ((i, d) :: ps)
            | .error e => .error e
        | .ok false => filterAux q limit ds (i + 1) got

/-- Modelled from the spec: mongokit.Filter; the query must be a
document. -/
def FilterDocs (docs : List Doc) (query : Value) (limit : Nat) :
    Except Err (List (Nat × Doc)) :=
  match query with
  | .vdoc q => filterAux q limit docs 0 0
  | _ => .error .badValue

/-- The id of a document: its value at the id path. -/
def getId (d : Doc) : Option Value := Get d.content ("_id")

/-- Modelled from the spec: the mongokit Index restricted to the
primary index over the id field, an association list from the id key
(none models a missing id) to the owning document.  Set inserts unless
a different document already holds an equal key and reports the
conflict as none. -/
def pindexSet (idx : List (Option Value × Doc)) (d : Doc) :
    Option (List (Option Value × Doc)) :=
  match idx.find? (fun e => decide (e.1 = getId d)) with
  | some e => if e.2 = d then some idx else none
  | none => some ((getId d, d) :: idx)

/-- Modelled from the spec: Index.Delete removes an entry by key and
document identity. -/
def pindexDelete (idx : List (Option Value × Doc)) (d : Doc) :
    List (Option Value × Doc) :=
  idx.filter (fun e => !(decide (e.1 = getId d) && decide (e.2 = d)))

/-- The deletion loop over a list of documents. -/
def pindexDeleteAll :
    List (Option Value × Doc) → List Doc → List (Option Value × Doc)
  | idx, [] => idx
  | idx, d :: ds => pindexDeleteAll (pindexDelete idx d) ds

/-- The insertion loop over a list of documents, failing on the first
conflict. -/
def pindexSetAll : List (Option Value × Doc) → List Doc →
    Option (List (Option Value × Doc))
  | idx, [] => some idx
  | idx, d :: ds =>
      match pindexSet idx d with
      | none => none
      | some idx2 => pindexSetAll idx2 ds

/-- A namespace of the catalog (data.go): its name, the list of owned
documents and the derived primary index over the id field.  The
secondary index specifications of data.go are not touched by the
modelled operations and are omitted. -/
structure Namespace where
  name : String
  documents : List Doc
  primaryIndex : List (Option Value × Doc)
deriving DecidableEq

/-- NewNamespace from data.go: an empty namespace with an empty primary
index. -/
def NewNamespace (name : String) : Namespace := ⟨name, [], []⟩

/-- The catalog (Data in data.go): a map from namespace names to
namespaces, modelled as an association list.  Data.Clone shallow-copies
the map and Namespace.Clone copies the document list and the index
entries sharing the documents; both are value copies here, and the
sharing of the catalog pointed to by e.data is captured by the heap of
the engine state. -/
structure Data where
  namespaces : List (String × Namespace)
deriving DecidableEq

/-- Look a namespace up in the catalog. -/
def lookupNs (d : Data) (ns : String) : Option Namespace :=
  match d.namespaces.find? (fun p => decide (p.1 = ns)) with
  | some p => some p.2
  | none => none

/-- Map update: replace or add the binding of a namespace name. -/
def setNs (d : Data) (ns : String) (n : Namespace) : Data :=
  if d.namespaces.any (fun p => decide (p.1 = ns)) then
    ⟨d.namespaces.map (fun p => if p.1 = ns then (ns, n) else p)⟩
  else ⟨d.namespaces ++ [(ns, n)]⟩

/-- The engine state: a heap of catalog values indexed by addresses
models the Go pointers to Data values, cur is the address held by the
published pointer e.data, and next is the next fresh address (also
used to give cloned documents fresh identities). -/
structure EngineState where
  heap : Nat → Data
  cur : Nat
  next : Nat

/-- Writing a heap cell. -/
def updateHeap (h : Nat → Data) (a : Nat) (v : Data) : Nat → Data :=
  fun n => if n = a then v else h n

/-- The result record of engine.go: matched and modified counts. -/
structure OpResult where
  matched : Nat
  modified : Nat
deriving DecidableEq

/-- The documents loop of engine.insert: add each document to the
primary index of the staged namespace, failing on a duplicate id, and
append it to the staged documents list. -/
def addDocs : Namespace → List Doc → Option Namespace
  | n, [] => some n
  | n, d :: ds =>
      match pindexSet n.primaryIndex d with
      | none => none
      | some idx =>
          addDocs { n with primaryIndex := idx,
                           documents := n.documents ++ [d] } ds

/-- engine.insert from engine.go: reject the batch if any document
misses its id; stage the documents on a clone of the catalog and of
the namespace (created fresh when absent), checking id uniqueness
against the evolving staged index; persist the staged catalog and
publish it at a fresh address on success; on any error the published
catalog is left untouched. -/
def engineInsert (store : Data → Bool) (s : EngineState) (ns : String)
    (list : List Doc) : Option Err × EngineState :=
  if list.any (fun d => (getId d).isNone) then (some .missingId, s)
  else
    let base := s.heap s.cur
    let ns0 := match lookupNs base ns with
      | none => NewNamespace ns
      | some n => n
    match addDocs ns0 list with
    | none => (some .dupId, s)
    | some ns1 =>
        let staged := setNs base ns ns1
        if store staged then
          (none, ⟨updateHeap s.heap s.next staged, s.next, s.next + 1⟩)
        else (some .storeFailed, s)

/-- Writing a document at a position of the documents list (the Go
assignment to Documents at an index). -/
def setAt {α : Type} : List α → Nat → α → List α
  | [], _, _ => []
  | _ :: xs, 0, v => v :: xs
  | x :: xs, i + 1, v => x :: setAt xs i v

/-- engine.replace from engine.go: a missing namespace yields an empty
result; a replacement without an id is an error; the first matching
document is replaced in the staged clone, moving its primary index
entry to the replacement unless a different document already holds the
new id; the staged catalog is persisted and published on success. -/
def engineReplace (store : Data → Bool) (s : EngineState) (ns : String)
    (query : Value) (repl : Doc) : Except Err OpResult × EngineState :=
  let base := s.heap s.cur
  match lookupNs base ns with
  | none => (.ok ⟨0, 0⟩, s)
  | some n =>
      if (getId repl).isNone then (.error .missingId, s)
      else
        match FilterDocs n.documents query 1 with
        | .error e => (.error e, s)
        | .ok [] => (.ok ⟨0, 0⟩, s)
        | .ok ((i, d) :: _) =>
            match pindexSet (pindexDelete n.primaryIndex d) repl with
            | none => (.error .dupId, s)
            | some idx2 =>
                let ns1 : Namespace :=
                  { n with primaryIndex := idx2,
                           documents := setAt n.documents i repl }
                let staged := setNs base ns ns1
                if store staged then
                  (.ok ⟨1, 1⟩,
                    ⟨updateHeap s.heap s.next staged, s.next, s.next + 1⟩)
                else (.error .storeFailed, s)

/-- Modelled from the spec: bsonkit.CloneList clones each document of a
list; the clones carry fresh addresses (new Go pointers) and the same
contents. -/
def CloneList : Nat → List Doc → List Doc
  | _, [] => []
  | a, d :: ds => ⟨a, d.content⟩ :: CloneList (a + 1) ds

/-- Modelled from the spec: the set operator applies Put for each of
its fields in order. -/
def applySets : Value → List (String × Value) → Except Err Value
  | c, [] => .ok c
  | c, (p, v) :: rest =>
      match Put c p v false with
      | .ok c2 => applySets c2 rest
      | .error e => .error e

/-- Modelled from the spec: the fragment of the mongokit update
executor used here — the update document must consist of operator
entries; only the set operator is modelled and any other operator is an
unknown operator error. -/
def applyOps : Value → List (String × Value) → Except Err Value
  | c, [] => .ok c
  | c, (k, v) :: rest =>
      if k == "$set" then
        match v with
        | .vdoc kvs =>
            match applySets c kvs with
            | .ok c2 => applyOps c2 rest
            | .error e => .error e
        | _ => .error .badValue
      else .error .unknownOperator

/-- Modelled from the spec: mongokit.Update applied to every document
of a list in place — each document keeps its identity and gets the
updated contents. -/
def UpdateList : List Doc → Value → Except Err (List Doc)
  | [], _ => .ok []
  | d :: ds, u =>
      match u with
      | .vdoc ops =>
          match applyOps d.content ops with
          | .ok c2 =>
              match UpdateList ds u with
              | .ok ds2 => .ok (⟨d.addr, c2⟩ :: ds2)
              | .error e => .error e
          | .error e => .error e
      | _ => .error .badValue

/-- The write-back loop of engine.update: store each new document at
the position of the matched document it replaces. -/
def writeBack : List Doc → List Nat → List Doc → List Doc
  | docs, [], _ => docs
  | docs, _ :: _, [] => docs
  | docs, i :: is, d :: ds => writeBack (setAt docs i d) is ds

/-- engine.update from engine.go: a missing namespace or no match
yields an empty result; the matched documents are cloned, the update is
applied to the clones, the staged index entries of the old documents
are removed and entries for the new ones added (failing on duplicate
ids), the new documents are written back at the matched positions, and
the staged catalog is persisted and published on success. -/
def engineUpdate (store : Data → Bool) (s : EngineState) (ns : String)
    (query update : Value) (limit : Nat) :
    Except Err OpResult × EngineState :=
  let base := s.heap s.cur
  match lookupNs base ns with
  | none => (.ok ⟨0, 0⟩, s)
  | some n =>
      match FilterDocs n.documents query limit with
      | .error e => (.error e, s)
      | .ok [] => (.ok ⟨0, 0⟩, s)
      | .ok ((i0, d0) :: ps) =>
          let olds := ((i0, d0) :: ps).map (fun p => p.2)
          match UpdateList (CloneList s.next olds) update with
          | .error e => (.error e, s)
          | .ok news =>
              let idx1 := pindexDeleteAll n.primaryIndex olds
              match pindexSetAll idx1 news with
              | none => (.error .dupId, s)
              | some idx2 =>
                  let ns1 : Namespace :=
                    { n with primaryIndex := idx2,
                             documents :=
                               writeBack n.documents
                                 (((i0, d0) :: ps).map (fun p => p.1)) news }
                  let staged := setNs base ns ns1
                  let na := s.next + olds.length
                  if store staged then
                    (.ok ⟨olds.length, olds.length⟩,
                      ⟨updateHeap s.heap na staged, na, na + 1⟩)
                  else (.error .storeFailed, s)

/-- engine.delete from engine.go: the matched documents are removed
from the staged documents list with Difference and their index entries
deleted; the staged catalog is persisted and published on success (a
clone is staged and stored even when nothing matched). -/
def engineDelete (store : Data → Bool) (s : EngineState) (ns : String)
    (query : Value) (limit : Nat) : Except Err Nat × EngineState :=
  let base := s.heap s.cur
  match lookupNs base ns with
  | none => (.ok 0, s)
  | some n =>
      match FilterDocs n.documents query limit with
      | .error e => (.error e, s)
      | .ok ps =>
          let list := ps.map (fun p => p.2)
          let ns1 : Namespace :=
            { n with documents := Difference n.documents list,
                     primaryIndex := pindexDeleteAll n.primaryIndex list }
          let staged := setNs base ns ns1
          if store staged then
            (.ok list.length,
              ⟨updateHeap s.heap s.next staged, s.next, s.next + 1⟩)
          else (.error .storeFailed, s)

/-- engine.find from engine.go: a missing namespace yields an empty
result and no error; otherwise the namespace documents are filtered
against the query. -/
def engineFind (s : EngineState) (ns : String) (query : Value)
    (limit : Nat) : Except Err (List Doc) :=
  match lookupNs (s.heap s.cur) ns with
  | none => .ok []
  | some n =>
      match FilterDocs n.documents query limit with
      | .error e => .error e
      | .ok ps => .ok (ps.map (fun p => p.2))

/-- engine.numDocuments from engine.go: zero for a missing namespace,
the length of the documents list otherwise. -/
def engineNumDocuments (s : EngineState) (ns : String) : Nat :=
  match lookupNs (s.heap s.cur) ns with
  | none => 0
  | some n => n.documents.length

/-- engine.dropDatabase from engine.go: deletes every namespace of the
database directly from the published catalog value, in place at the
current address; no clone is staged and the store is never invoked. -/
def engineDropDatabase (s : EngineState) (name : String) : EngineState :=
  let base := s.heap s.cur
  let base2 : Data :=
    ⟨base.namespaces.filter (fun p => decide (dbOf p.1 ≠ name))⟩
  { s with heap := updateHeap s.heap s.cur base2 }

/-- engine.dropCollection from engine.go: deletes the namespace
directly from the published catalog value, in place at the current
address; no clone is staged and the store is never invoked. -/
def engineDropCollection (s : EngineState) (ns : String) : EngineState :=
  let base := s.heap s.cur
  let base2 : Data :=
    ⟨base.namespaces.filter (fun p => decide (p.1 ≠ ns))⟩
  { s with heap := updateHeap s.heap s.cur base2 }

theorem engineInsert_cases (store : Data → Bool) (s : EngineState)
    (ns : String) (list : List Doc) :
    (engineInsert store s ns list).1 = none ∨
    (engineInsert store s ns list).2 = s := by
  unfold engineInsert
  dsimp only
  split
  · exact Or.inr rfl
  · split
    · exact Or.inr rfl
    · split
      · exact Or.inl rfl
      · exact Or.inr rfl

theorem engineReplace_cases (store : Data → Bool) (s : EngineState)
    (ns : String) (query : Value) (repl : Doc) :
    (∃ r, (engineReplace store s ns query repl).1 = .ok r) ∨
    (engineReplace store s ns query repl).2 = s := by
  unfold engineReplace
  dsimp only
  split
  · exact Or.inl ⟨_, rfl⟩
  · split
    · exact Or.inr rfl
    · split
      · exact Or.inr rfl
      · exact Or.inl ⟨_, rfl⟩
      · split
        · exact Or.inr rfl
        · split
          · exact Or.inl ⟨_, rfl⟩
          · exact Or.inr rfl

theorem engineUpdate_cases (store : Data → Bool) (s : EngineState)
    (ns : String) (query update : Value) (limit : Nat) :
    (∃ r, (engineUpdate store s ns query update limit).1 = .ok r) ∨
    (engineUpdate store s ns query update limit).2 = s := by
  unfold engineUpdate
  dsimp only
  split
  · exact Or.inl ⟨_, rfl⟩
  · split
    · exact Or.inr rfl
    · exact Or.inl ⟨_, rfl⟩
    · split
      · exact Or.inr rfl
      · split
        · exact Or.inr rfl
        · split
          · exact Or.inl ⟨_, rfl⟩
          · exact Or.inr rfl

theorem engineDelete_cases (store : Data → Bool) (s : EngineState)
    (ns : String) (query : Value) (limit : Nat) :
    (∃ r, (engineDelete store s ns query limit).1 = .ok r) ∨
    (engineDelete store s ns query limit).2 = s := by
  unfold engineDelete
  dsimp only
  split
  · exact Or.inl ⟨_, rfl⟩
  · split
    · exact Or.inr rfl
    · split
      · exact Or.inl ⟨_, rfl⟩
      · exact Or.inr rfl

theorem engineInsert_error_state (store : Data → Bool) (s : EngineState)
    (ns : String) (list : List Doc) (e : Err)
    (h : (engineInsert store s ns list).1 = some e) :
    (engineInsert store s ns list).2 = s := by
  rcases engineInsert_cases store s ns list with hn | hs
  · rw [h] at hn; cases hn
  · exact hs

theorem engineReplace_error_state (store : Data → Bool) (s : EngineState)
    (ns : String) (query : Value) (repl : Doc) (e : Err)
    (h : (engineReplace store s ns query repl).1 = .error e) :
    (engineReplace store s ns query repl).2 = s := by
  rcases engineReplace_cases store s ns query repl with ⟨r, hr⟩ | hs
  · rw [h] at hr; cases hr
  · exact hs

theorem engineUpdate_error_state (store : Data → Bool) (s : EngineState)
    (ns : String) (query update : Value) (limit : Nat) (e : Err)
    (h : (engineUpdate store s ns query update limit).1 = .error e) :
    (engineUpdate store s ns query update limit).2 = s := by
  rcases engineUpdate_cases store s ns query update limit with ⟨r, hr⟩ | hs
  · rw [h] at hr; cases hr
  · exact hs

theorem engineDelete_error_state (store : Data → Bool) (s : EngineState)
    (ns : String) (query : Value) (limit : Nat) (e : Err)
    (h : (engineDelete store s ns query limit).1 = .error e) :
    (engineDelete store s ns query limit).2 = s := by
  rcases engineDelete_cases store s ns query limit with ⟨r, hr⟩ | hs
  · rw [h] at hr; cases hr
  · exact hs

/-- C1: when the store rejects the staged clone, every mutating engine
operation (insert, replace, update, delete) surfaces the store error
and returns with the engine state exactly as it was — same published
pointer, same heap, same allocator — so the published catalog value,
its namespaces and documents are unchanged and subsequent reads (find,
numDocuments are functions of that state) observe none of the staged
changes. -/
theorem c1_store_error_leaves_catalog_unchanged
    (store : Data → Bool) (s : EngineState) (ns : String)
    (list : List Doc) (query update : Value) (repl : Doc) (limit : Nat) :
    ((engineInsert store s ns list).1 = some Err.storeFailed →
      (engineInsert store s ns list).2 = s) ∧
    ((engineReplace store s ns query repl).1 = .error Err.storeFailed →
      (engineReplace store s ns query repl).2 = s) ∧
    ((engineUpdate store s ns query update limit).1 =
        .error Err.storeFailed →
      (engineUpdate store s ns query update limit).2 = s) ∧
    ((engineDelete store s ns query limit).1 = .error Err.storeFailed →
      (engineDelete store s ns query limit).2 = s) :=
  ⟨engineInsert_error_state store s ns list Err.storeFailed,
   engineReplace_error_state store s ns query repl Err.storeFailed,
   engineUpdate_error_state store s ns query update limit Err.storeFailed,
   engineDelete_error_state store s ns query limit Err.storeFailed⟩

/-- Equality test for Except results. -/
def exceptBeq {e a : Type} [DecidableEq e] [DecidableEq a] :
    Except e a → Except e a → Bool
  | .ok x, .ok y => decide (x = y)
  | .error x, .error y => decide (x = y)
  | _, _ => false

theorem exceptBeq_iff {e a : Type} [DecidableEq e] [DecidableEq a]
    (x y : Except e a) : exceptBeq x y = true ↔ x = y := by
  cases x <;> cases y <;> simp [exceptBeq]

instance {e a : Type} [DecidableEq e] [DecidableEq a] :
    DecidableEq (Except e a) := fun x y =>
  decidable_of_iff _ (exceptBeq_iff x y)

/-- A stored document with id 7 used in concrete engine states. -/
def doc7 : Doc := ⟨10, .vdoc [("_id", .vint 7), ("x", .vint 1)]⟩

/-- A namespace holding doc7 together with its primary index entry. -/
def nsOne : Namespace :=
  ⟨("db.c"), [doc7], [(some (.vint 7), doc7)]⟩

/-- A catalog with the single namespace db.c holding doc7. -/
def dataOne : Data := ⟨[(("db.c"), nsOne)]⟩

/-- An engine state publishing dataOne at address zero. -/
def stateOne : EngineState := ⟨fun _ => dataOne, 0, 1⟩

/-- An empty namespace named db.c. -/
def nsEmpty : Namespace := ⟨("db.c"), [], []⟩

/-- A catalog with the empty namespace db.c. -/
def dataEmpty : Data := ⟨[(("db.c"), nsEmpty)]⟩

/-- An engine state publishing dataEmpty at address zero. -/
def stateEmpty : EngineState := ⟨fun _ => dataEmpty, 0, 1⟩

/-- A store that rejects every catalog. -/
def storeNo : Data → Bool := fun _ => false

/-- A store that accepts every catalog. -/
def storeYes : Data → Bool := fun _ => true

/-- A fresh document with id 8. -/
def doc8 : Doc := ⟨11, .vdoc [("_id", .vint 8), ("y", .vint 2)]⟩

/-- A replacement document carrying id 7. -/
def repl7 : Doc := ⟨12, .vdoc [("_id", .vint 7), ("y", .vint 2)]⟩

/-- The filter matching id 7. -/
def query7 : Value := .vdoc [("_id", .vint 7)]

/-- The empty filter. -/
def queryAll : Value := .vdoc []

/-- A set update writing field y. -/
def setY : Value := .vdoc [("$set", .vdoc [("y", .vint 3)])]

/-- C1 (witness): with a store that rejects everything, the four
mutating operations on a concrete state reach the store, fail with the
store error and leave the state unchanged. -/
theorem c1_witness :
    (engineInsert storeNo stateOne ("db.c") [doc8]).2 = stateOne ∧
    (engineReplace storeNo stateOne ("db.c") query7 repl7).2 = stateOne ∧
    (engineUpdate storeNo stateOne ("db.c") query7 setY 1).2 = stateOne ∧
    (engineDelete storeNo stateOne ("db.c") queryAll 0).2 = stateOne := by
  have h := c1_store_error_leaves_catalog_unchanged storeNo stateOne
    ("db.c") [doc8] query7 setY repl7 1
  have h2 := c1_store_error_leaves_catalog_unchanged storeNo stateOne
    ("db.c") [doc8] queryAll setY repl7 0
  exact ⟨h.1 (by decide), h.2.1 (by decide), h.2.2.1 (by decide),
    h2.2.2.2 (by decide)⟩

theorem engineInsert_state_shape (store : Data → Bool) (s : EngineState)
    (ns : String) (list : List Doc) :
    (engineInsert store s ns list).2 = s ∨
    (∃ v a, s.next ≤ a ∧ store v = true ∧
      (engineInsert store s ns list).2 =
        ⟨updateHeap s.heap a v, a, a + 1⟩) := by
  unfold engineInsert
  dsimp only
  split
  · exact Or.inl rfl
  · split
    · exact Or.inl rfl
    · split
      next hst => exact Or.inr ⟨_, s.next, Nat.le_refl _, hst, rfl⟩
      next hst => exact Or.inl rfl

theorem engineReplace_state_shape (store : Data → Bool) (s : EngineState)
    (ns : String) (query : Value) (repl : Doc) :
    (engineReplace store s ns query repl).2 = s ∨
    (∃ v a, s.next ≤ a ∧ store v = true ∧
      (engineReplace store s ns query repl).2 =
        ⟨updateHeap s.heap a v, a, a + 1⟩) := by
  unfold engineReplace
  dsimp only
  split
  · exact Or.inl rfl
  · split
    · exact Or.inl rfl
    · split
      · exact Or.inl rfl
      · exact Or.inl rfl
      · split
        · exact Or.inl rfl
        · split
          next hst => exact Or.inr ⟨_, s.next, Nat.le_refl _, hst, rfl⟩
          next hst => exact Or.inl rfl

theorem engineUpdate_state_shape (store : Data → Bool) (s : EngineState)
    (ns : String) (query update : Value) (limit : Nat) :
    (engineUpdate store s ns query update limit).2 = s ∨
    (∃ v a, s.next ≤ a ∧ store v = true ∧
      (engineUpdate store s ns query update limit).2 =
        ⟨updateHeap s.heap a v, a, a + 1⟩) := by
  unfold engineUpdate
  dsimp only
  split
  · exact Or.inl rfl
  · split
    · exact Or.inl rfl
    · exact Or.inl rfl
    · split
      · exact Or.inl rfl
      · split
        · exact Or.inl rfl
        · split
          next hst =>
            exact Or.inr ⟨_, _, Nat.le_add_right _ _, hst, rfl⟩
          next hst => exact Or.inl rfl

theorem engineDelete_state_shape (store : Data → Bool) (s : EngineState)
    (ns : String) (query : Value) (limit : Nat) :
    (engineDelete store s ns query limit).2 = s ∨
    (∃ v a, s.next ≤ a ∧ store v = true ∧
      (engineDelete store s ns query limit).2 =
        ⟨updateHeap s.heap a v, a, a + 1⟩) := by
  unfold engineDelete
  dsimp only
  split
  · exact Or.inl rfl
  · split
    · exact Or.inl rfl
    · split
      next hst => exact Or.inr ⟨_, s.next, Nat.le_refl _, hst, rfl⟩
      next hst => exact Or.inl rfl

theorem shape_conclusion {store : Data → Bool} {s : EngineState}
    (h : s.cur < s.next) (s2 : EngineState)
    (hs : s2 = s ∨ ∃ v a, s.next ≤ a ∧ store v = true ∧
      s2 = ⟨updateHeap s.heap a v, a, a + 1⟩) :
    s2.heap s.cur = s.heap s.cur ∧
    (s2.cur ≠ s.cur → store (s2.heap s2.cur) = true) := by
  rcases hs with rfl | ⟨v, a, hle, hst, rfl⟩
  · exact ⟨rfl, fun hc => absurd rfl hc⟩
  · have hne : s.cur ≠ a := by omega
    refine ⟨?_, fun _ => ?_⟩
    · simp [updateHeap, hne]
    · simpa [updateHeap] using hst

/-- C2 (amended): insert, replace, update and delete stage their
changes away from the published catalog: the catalog value at the
previously published address is never modified, and whenever the
published pointer moves it moves to a fresh address holding a staged
catalog the store accepted first.  dropDatabase and dropCollection, by
contrast, rewrite the catalog value at the published address itself —
in place, without staging a clone and without consulting the store —
so the pointer never moves for them. -/
theorem c2_mutations_staged_drops_in_place
    (store : Data → Bool) (s : EngineState) (h : s.cur < s.next)
    (ns nm : String) (list : List Doc) (query update : Value)
    (repl : Doc) (limit : Nat) :
    ((engineInsert store s ns list).2.heap s.cur = s.heap s.cur ∧
      ((engineInsert store s ns list).2.cur ≠ s.cur →
        store ((engineInsert store s ns list).2.heap
          (engineInsert store s ns list).2.cur) = true)) ∧
    ((engineReplace store s ns query repl).2.heap s.cur = s.heap s.cur ∧
      ((engineReplace store s ns query repl).2.cur ≠ s.cur →
        store ((engineReplace store s ns query repl).2.heap
          (engineReplace store s ns query repl).2.cur) = true)) ∧
    ((engineUpdate store s ns query update limit).2.heap s.cur =
        s.heap s.cur ∧
      ((engineUpdate store s ns query update limit).2.cur ≠ s.cur →
        store ((engineUpdate store s ns query update limit).2.heap
          (engineUpdate store s ns query update limit).2.cur) = true)) ∧
    ((engineDelete store s ns query limit).2.heap s.cur = s.heap s.cur ∧
      ((engineDelete store s ns query limit).2.cur ≠ s.cur →
        store ((engineDelete store s ns query limit).2.heap
          (engineDelete store s ns query limit).2.cur) = true)) ∧
    (engineDropDatabase s nm).cur = s.cur ∧
    (engineDropCollection s nm).cur = s.cur :=
  ⟨shape_conclusion h _ (engineInsert_state_shape store s ns list),
   shape_conclusion h _ (engineReplace_state_shape store s ns query repl),
   shape_conclusion h _
     (engineUpdate_state_shape store s ns query update limit),
   shape_conclusion h _ (engineDelete_state_shape store s ns query limit),
   rfl, rfl⟩

/-- C2 (counterexample): dropping a database modifies the catalog value
in place at the published address without staging a clone: the pointer
does not move, yet the value it reaches changes, so a reader holding
the previously published catalog observes the namespace disappear. -/
theorem c2_counterexample :
    (engineDropDatabase stateOne ("db")).heap 0 ≠ stateOne.heap 0 ∧
    (engineDropDatabase stateOne ("db")).cur = stateOne.cur ∧
    engineNumDocuments stateOne ("db.c") = 1 ∧
    engineNumDocuments (engineDropDatabase stateOne ("db")) ("db.c") = 0 := by
  refine ⟨by decide, rfl, by decide, by decide⟩

/-- C2 (witness): the amended staging theorem applied at a concrete
state and concrete operations. -/
theorem c2_witness :
    (engineInsert storeYes stateOne ("db.c") [doc8]).2.heap stateOne.cur =
      stateOne.heap stateOne.cur ∧
    (engineReplace storeYes stateOne ("db.c") query7 repl7).2.heap
      stateOne.cur = stateOne.heap stateOne.cur ∧
    (engineUpdate storeYes stateOne ("db.c") query7 setY 1).2.heap
      stateOne.cur = stateOne.heap stateOne.cur ∧
    (engineDelete storeYes stateOne ("db.c") queryAll 0).2.heap
      stateOne.cur = stateOne.heap stateOne.cur ∧
    (engineDropDatabase stateOne ("db")).cur = stateOne.cur := by
  have h := c2_mutations_staged_drops_in_place storeYes stateOne
    (by decide) ("db.c") ("db") [doc8] query7 setY repl7 1
  exact ⟨h.1.1, h.2.1.1, h.2.2.1.1, h.2.2.2.1.1, h.2.2.2.2.1⟩

/-- C10: for every query and limit, find against a namespace absent
from the published catalog returns an empty result and no error
(rather than a namespace-not-found error), and numDocuments returns
zero; both operations are pure functions of the engine state, so
neither creates the namespace nor modifies the catalog. -/
theorem c10_missing_namespace_reads (s : EngineState) (ns : String)
    (query : Value) (limit : Nat)
    (h : lookupNs (s.heap s.cur) ns = none) :
    engineFind s ns query limit = .ok [] ∧
    engineNumDocuments s ns = 0 := by
  unfold engineFind engineNumDocuments
  rw [h]
  exact ⟨rfl, rfl⟩

/-- C10 (witness): the missing-namespace read theorem applied to a
concrete catalog without the namespace db.d. -/
theorem c10_witness :
    engineFind stateOne ("db.d") query7 0 = .ok [] ∧
    engineNumDocuments stateOne ("db.d") = 0 :=
  c10_missing_namespace_reads stateOne ("db.d") query7 0 (by decide)

/-- C5 (amended): the engine exposes no upsert option — update and
replace take no upsert flag — and when the query matches no document
(or the namespace does not exist) they return an empty result and
leave the engine state untouched: no seed document is extracted from
the query, nothing is inserted, and the published catalog is
unchanged. -/
theorem c5_no_match_returns_empty (store : Data → Bool) (s : EngineState)
    (ns : String) (query update : Value) (repl : Doc) (limit : Nat) :
    (lookupNs (s.heap s.cur) ns = none →
      engineUpdate store s ns query update limit = (.ok ⟨0, 0⟩, s) ∧
      engineReplace store s ns query repl = (.ok ⟨0, 0⟩, s)) ∧
    (∀ n, lookupNs (s.heap s.cur) ns = some n →
      FilterDocs n.documents query limit = .ok [] →
      engineUpdate store s ns query update limit = (.ok ⟨0, 0⟩, s)) ∧
    (∀ n, lookupNs (s.heap s.cur) ns = some n →
      (getId repl).isNone = false →
      FilterDocs n.documents query 1 = .ok [] →
      engineReplace store s ns query repl = (.ok ⟨0, 0⟩, s)) := by
  refine ⟨?_, ?_, ?_⟩
  · intro h
    constructor
    · unfold engineUpdate
      dsimp only
      rw [h]
    · unfold engineReplace
      dsimp only
      rw [h]
  · intro n hn hf
    unfold engineUpdate
    simp only [hn, hf]
  · intro n hn hid hf
    unfold engineReplace
    simp only [hn, hid, hf, Bool.false_eq_true, if_false]

/-- C5 (counterexample): on a concrete empty collection, the update of
the claim's scenario (query a equals 1 and b equals 2, update setting
c to 3) matches nothing, returns the empty result and leaves the state
unchanged: the engine update has no upsert parameter, no document is
inserted, no Upserted result exists, and the collection stays empty
with no stored document containing c. -/
theorem c5_counterexample :
    engineUpdate storeYes stateEmpty ("db.c")
      (.vdoc [("a", .vint 1), ("b", .vint 2)])
      (.vdoc [("$set", .vdoc [("c", .vint 3)])]) 1 =
      (.ok ⟨0, 0⟩, stateEmpty) ∧
    engineNumDocuments stateEmpty ("db.c") = 0 := by
  exact ⟨rfl, rfl⟩

/-- C5 (witness): the no-match theorem applied to the concrete empty
collection and to a missing namespace. -/
theorem c5_witness :
    engineUpdate storeYes stateEmpty ("db.c") query7 setY 1 =
      (.ok ⟨0, 0⟩, stateEmpty) ∧
    engineReplace storeYes stateEmpty ("db.c") query7 repl7 =
      (.ok ⟨0, 0⟩, stateEmpty) := by
  have h := c5_no_match_returns_empty storeYes stateEmpty ("db.c")
    query7 setY repl7 1
  exact ⟨h.2.1 nsEmpty (by decide) (by decide),
    h.2.2 nsEmpty (by decide) (by decide) (by decide)⟩

/-- A replacement document without an id. -/
def replNoId : Doc := ⟨13, .vdoc [("y", .vint 2)]⟩

/-- C4 (amended): replace requires the replacement to carry an id — a
replacement without one is rejected with the missing id error and the
state left unchanged, the id is never taken from the matched document;
and a replacement whose id differs from the matched document's id is
accepted when no other document holds that id, as the concrete
conjuncts show: replacing the document with id 7 by a document with id
8 succeeds, reports one match and one modification, and stores the new
document. -/
theorem c4_replace_requires_id (store : Data → Bool) (s : EngineState)
    (ns : String) (query : Value) (repl : Doc) :
    (∀ n, lookupNs (s.heap s.cur) ns = some n →
      (getId repl).isNone = true →
      engineReplace store s ns query repl = (.error Err.missingId, s)) ∧
    (engineReplace storeYes stateOne ("db.c") query7 doc8).1 =
      .ok ⟨1, 1⟩ ∧
    (lookupNs
      ((engineReplace storeYes stateOne ("db.c") query7 doc8).2.heap
        (engineReplace storeYes stateOne ("db.c") query7 doc8).2.cur)
      ("db.c")).map (fun n => n.documents) = some [doc8] := by
  refine ⟨?_, by decide, by decide⟩
  intro n hn hid
  unfold engineReplace
  simp only [hn, hid, if_true]

/-- C4 (counterexample): for the collection holding the document with
id 7, the replace of the claim's scenario with the replacement that
carries no id (y equals 2) is rejected with the missing id error
instead of succeeding with the id taken from the match; and the
replacement carrying the different id 8 is accepted with one match and
one modification rather than rejected. -/
theorem c4_counterexample :
    engineReplace storeYes stateOne ("db.c") query7 replNoId =
      (.error Err.missingId, stateOne) ∧
    (engineReplace storeYes stateOne ("db.c") query7 doc8).1 =
      .ok ⟨1, 1⟩ := by
  exact ⟨rfl, by decide⟩

/-- C4 (witness): the replace theorem applied to the concrete state
with the id-less replacement. -/
theorem c4_witness :
    engineReplace storeYes stateOne ("db.c") query7 replNoId =
      (.error Err.missingId, stateOne) :=
  (c4_replace_requires_id storeYes stateOne ("db.c") query7 replNoId).1
    nsOne (by decide) (by decide)

theorem cmpOpt_eq_iff (a b : Option Value) : cmpOpt a b = .eq ↔ a = b := by
  cases a <;> cases b <;> simp [cmpOpt]
  exact Compare_eq_iff _ _

/-- Distinctness of the keys of a primary index. -/
def keysNodup (idx : List (Option Value × Doc)) : Prop :=
  (idx.map Prod.fst).Nodup

theorem pindexSet_subset {idx idx' : List (Option Value × Doc)} {d : Doc}
    (h : pindexSet idx d = some idx') : ∀ e ∈ idx, e ∈ idx' := by
  unfold pindexSet at h
  split at h
  · split at h
    · cases h; exact fun e he => he
    · cases h
  · cases h
    exact fun e he => List.mem_cons_of_mem _ he

theorem pindexSet_entry {idx idx' : List (Option Value × Doc)} {d : Doc}
    (h : pindexSet idx d = some idx') :
    ∃ e ∈ idx', e.1 = getId d ∧ e.2 = d := by
  unfold pindexSet at h
  split at h
  next e hfind =>
    split at h
    next heq =>
      cases h
      refine ⟨e, List.mem_of_find?_eq_some hfind, ?_, heq⟩
      have := List.find?_some hfind
      simpa using this
    next => cases h
  next hfind =>
    cases h
    exact ⟨(getId d, d), List.mem_cons_self _ _, rfl, rfl⟩

theorem pindexSet_keysNodup {idx idx' : List (Option Value × Doc)} {d : Doc}
    (h : pindexSet idx d = some idx') (hk : keysNodup idx) :
    keysNodup idx' := by
  unfold pindexSet at h
  split at h
  · split at h
    · cases h; exact hk
    · cases h
  next hfind =>
    cases h
    unfold keysNodup
    simp only [List.map_cons]
    rw [List.nodup_cons]
    refine ⟨?_, hk⟩
    intro hmem
    obtain ⟨e, he, heq⟩ := List.mem_map.mp hmem
    have := List.find?_eq_none.mp hfind e he
    simp [heq] at this

theorem addDocs_subset {list : List Doc} :
    ∀ {n n' : Namespace}, addDocs n list = some n' →
    ∀ e ∈ n.primaryIndex, e ∈ n'.primaryIndex := by
  induction list with
  | nil =>
      intro n n' h e he
      cases h
      exact he
  | cons d ds ih =>
      intro n n' h e he
      unfold addDocs at h
      split at h
      · cases h
      next idx hset =>
        exact ih h e (pindexSet_subset hset e he)

theorem addDocs_documents {list : List Doc} :
    ∀ {n n' : Namespace}, addDocs n list = some n' →
    n'.documents = n.documents ++ list := by
  induction list with
  | nil =>
      intro n n' h
      cases h
      simp
  | cons d ds ih =>
      intro n n' h
      unfold addDocs at h
      split at h
      · cases h
      next idx hset =>
        have := ih h
        simpa using this

theorem addDocs_index {list : List Doc} :
    ∀ {n n' : Namespace}, addDocs n list = some n' →
    keysNodup n.primaryIndex →
    keysNodup n'.primaryIndex ∧
    ∀ d ∈ list, ∃ e ∈ n'.primaryIndex, e.1 = getId d ∧ e.2 = d := by
  induction list with
  | nil =>
      intro n n' h hk
      cases h
      exact ⟨hk, by simp⟩
  | cons d ds ih =>
      intro n n' h hk
      unfold addDocs at h
      split at h
      · cases h
      next idx hset =>
        obtain ⟨hk2, hmem⟩ := ih h (pindexSet_keysNodup hset hk)
        refine ⟨hk2, ?_⟩
        intro d2 hd2
        rcases List.mem_cons.mp hd2 with rfl | hds
        · obtain ⟨e, he, h1, h2⟩ := pindexSet_entry hset
          exact ⟨e, addDocs_subset h e he, h1, h2⟩
        · exact hmem d2 hds

theorem keysNodup_entry_unique {idx : List (Option Value × Doc)}
    (hk : keysNodup idx) :
    ∀ e₁ ∈ idx, ∀ e₂ ∈ idx, e₁.1 = e₂.1 → e₁ = e₂ := by
  unfold keysNodup at hk
  induction idx with
  | nil => intro e₁ h; cases h
  | cons x xs ih =>
      simp only [List.map_cons, List.nodup_cons] at hk
      intro e₁ h1 e₂ h2 hkey
      rcases List.mem_cons.mp h1 with h1e | h1t <;>
        rcases List.mem_cons.mp h2 with h2e | h2t
      · rw [h1e, h2e]
      · exfalso
        exact hk.1 (List.mem_map.mpr ⟨e₂, h2t, by rw [← hkey, h1e]⟩)
      · exfalso
        exact hk.1 (List.mem_map.mpr ⟨e₁, h1t, by rw [hkey, h2e]⟩)
      · exact ih hk.2 e₁ h1t e₂ h2t hkey

theorem find?_map_setNs (ns : String) (n : Namespace) :
    ∀ l : List (String × Namespace),
    l.any (fun p => decide (p.1 = ns)) = true →
    (l.map (fun p => if p.1 = ns then (ns, n) else p)).find?
      (fun p => decide (p.1 = ns)) = some (ns, n) := by
  intro l
  induction l with
  | nil => intro h; simp at h
  | cons q l ih =>
      intro h
      by_cases hq : q.1 = ns
      · simp only [List.map_cons, if_pos hq]
        rw [List.find?_cons_of_pos _ (by simp)]
      · have h2 : l.any (fun p => decide (p.1 = ns)) = true := by
          simpa [List.any_cons, hq] using h
        simp only [List.map_cons, if_neg hq]
        rw [List.find?_cons_of_neg _ (by simp [hq]), ih h2]

theorem lookupNs_setNs (d : Data) (ns : String) (n : Namespace) :
    lookupNs (setNs d ns n) ns = some n := by
  unfold lookupNs setNs
  by_cases hany : d.namespaces.any (fun p => decide (p.1 = ns)) = true
  · rw [if_pos hany]
    simp only
    rw [find?_map_setNs ns n d.namespaces hany]
  · rw [if_neg hany]
    simp only
    have hf : d.namespaces.any (fun p => decide (p.1 = ns)) = false :=
      Bool.eq_false_iff.mpr hany
    have hnone : d.namespaces.find? (fun p => decide (p.1 = ns)) = none := by
      rw [List.find?_eq_none]
      intro p hp
      have := List.any_eq_false.mp hf p hp
      simpa using this
    rw [List.find?_append, hnone]
    simp only [Option.none_or]
    rw [List.find?_cons_of_pos _ (by simp)]

theorem engineInsert_ok_shape (store : Data → Bool) (s : EngineState)
    (ns : String) (list : List Doc)
    (h : (engineInsert store s ns list).1 = none) :
    ∃ ns1, addDocs
        (match lookupNs (s.heap s.cur) ns with
         | none => NewNamespace ns
         | some n => n) list = some ns1 ∧
      (engineInsert store s ns list).2 =
        ⟨updateHeap s.heap s.next (setNs (s.heap s.cur) ns ns1),
         s.next, s.next + 1⟩ := by
  unfold engineInsert at h ⊢
  dsimp only at h ⊢
  split at h
  next hmiss => cases h
  next hmiss =>
    rw [if_neg hmiss]
    split at h
    next hadd => cases h
    next ns1 hadd =>
      rw [hadd]
      split at h
      next hst =>
        rw [if_pos hst]
        exact ⟨ns1, rfl, rfl⟩
      next hst => cases h

/-- C3 (amended): engine insert has no ordered flag and no partial
success.  A batch containing a document without an id is rejected with
the missing id error; on any error the engine state is exactly as
before, so no document of the batch — in particular no earlier
document — has been inserted; on success all documents are appended to
the namespace in batch order; and id uniqueness is checked against the
evolving staged index, so a batch containing two distinct documents
whose ids compare equal always fails (given distinct keys in the
published primary index). -/
theorem c3_insert_batch_atomic (store : Data → Bool) (s : EngineState)
    (ns : String) (list : List Doc) :
    ((∃ d ∈ list, (getId d).isNone = true) →
      engineInsert store s ns list = (some Err.missingId, s)) ∧
    (∀ e, (engineInsert store s ns list).1 = some e →
      (engineInsert store s ns list).2 = s) ∧
    ((engineInsert store s ns list).1 = none →
      ∃ n1, lookupNs ((engineInsert store s ns list).2.heap
          (engineInsert store s ns list).2.cur) ns = some n1 ∧
        n1.documents =
          (match lookupNs (s.heap s.cur) ns with
           | none => []
           | some n => n.documents) ++ list) ∧
    (∀ d₁ d₂, d₁ ∈ list → d₂ ∈ list → d₁ ≠ d₂ →
      cmpOpt (getId d₁) (getId d₂) = .eq →
      (∀ n, lookupNs (s.heap s.cur) ns = some n →
        keysNodup n.primaryIndex) →
      (engineInsert store s ns list).1 ≠ none) := by
  refine ⟨?_, ?_, ?_, ?_⟩
  · rintro ⟨d, hd, hid⟩
    have hany : (list.any fun d => (getId d).isNone) = true :=
      List.any_eq_true.mpr ⟨d, hd, hid⟩
    unfold engineInsert
    rw [if_pos hany]
  · exact fun e => engineInsert_error_state store s ns list e
  · intro hok
    obtain ⟨ns1, hadd, hst⟩ := engineInsert_ok_shape store s ns list hok
    refine ⟨ns1, ?_, ?_⟩
    · rw [hst]
      simp [updateHeap, lookupNs_setNs]
    · have hdocs := addDocs_documents hadd
      rw [hdocs]
      cases hlk : lookupNs (s.heap s.cur) ns <;> simp [hlk, NewNamespace]
  · intro d₁ d₂ h1 h2 hne hid hinv hok
    obtain ⟨ns1, hadd, _⟩ := engineInsert_ok_shape store s ns list hok
    have hk0 : keysNodup
        (match lookupNs (s.heap s.cur) ns with
         | none => NewNamespace ns
         | some n => n).primaryIndex := by
      cases hlk : lookupNs (s.heap s.cur) ns
      · simp [NewNamespace, keysNodup]
      · exact hinv _ hlk
    obtain ⟨hk1, hmem⟩ := addDocs_index hadd hk0
    obtain ⟨e₁, he1, hk1e, hd1e⟩ := hmem d₁ h1
    obtain ⟨e₂, he2, hk2e, hd2e⟩ := hmem d₂ h2
    have hkeq : e₁.1 = e₂.1 := by
      rw [hk1e, hk2e]
      exact cmpOpt_eq_iff _ _ |>.mp hid
    have := keysNodup_entry_unique hk1 e₁ he1 e₂ he2 hkeq
    apply hne
    rw [← hd1e, ← hd2e, this]

/-- A first document with id 1. -/
def dupA : Doc := ⟨20, .vdoc [("_id", .vint 1), ("x", .vstr ("a"))]⟩

/-- A distinct second document with the same id 1. -/
def dupB : Doc := ⟨21, .vdoc [("_id", .vint 1), ("x", .vstr ("b"))]⟩

/-- C3 (counterexample): inserting the batch of two distinct documents
with the same id into the empty collection fails on the second
document and leaves the collection empty — the first document of the
batch is not inserted, contradicting the claimed ordered
stop-at-first-error behavior that would leave earlier documents
inserted; the engine insert also has no ordered parameter with which
to request partial success. -/
theorem c3_counterexample :
    engineInsert storeYes stateEmpty ("db.c") [dupA, dupB] =
      (some Err.dupId, stateEmpty) ∧
    engineNumDocuments stateEmpty ("db.c") = 0 := by
  exact ⟨rfl, rfl⟩

/-- C3 (witness): the insert theorem applied to concrete batches — one
with a missing id, one with two distinct documents sharing an id, and
one valid batch that is appended whole. -/
theorem c3_witness :
    engineInsert storeYes stateEmpty ("db.c") [replNoId] =
      (some Err.missingId, stateEmpty) ∧
    (engineInsert storeYes stateEmpty ("db.c") [dupA, dupB]).1 ≠ none ∧
    (∃ n1, lookupNs ((engineInsert storeYes stateEmpty ("db.c")
          [doc8]).2.heap
        (engineInsert storeYes stateEmpty ("db.c") [doc8]).2.cur)
        ("db.c") = some n1 ∧
      n1.documents =
        (match lookupNs (stateEmpty.heap stateEmpty.cur) ("db.c") with
         | none => []
         | some n => n.documents) ++ [doc8]) := by
  have ha := c3_insert_batch_atomic storeYes stateEmpty ("db.c") [replNoId]
  have hb := c3_insert_batch_atomic storeYes stateEmpty ("db.c")
    [dupA, dupB]
  have hc := c3_insert_batch_atomic storeYes stateEmpty ("db.c") [doc8]
  refine ⟨ha.1 ⟨replNoId, by decide, by decide⟩, ?_, hc.2.2.1 (by decide)⟩
  refine hb.2.2.2 dupA dupB (by decide) (by decide) (by decide)
    (by decide) ?_
  intro n hn
  have h0 : lookupNs (stateEmpty.heap stateEmpty.cur) ("db.c") =
      some nsEmpty := by decide
  rw [h0] at hn
  cases hn
  simp [nsEmpty, keysNodup]

theorem setAt_length {α : Type} : ∀ (l : List α) (i : Nat) (v : α),
    (setAt l i v).length = l.length
  | [], _, _ => rfl
  | _ :: _, 0, _ => rfl
  | x :: xs, i + 1, v => by
      simp only [setAt, List.length_cons, setAt_length xs i v]

theorem setAt_get_ne {α : Type} : ∀ (l : List α) (i j : Nat) (v : α),
    i ≠ j → (setAt l i v).get? j = l.get? j
  | [], _, _, _, _ => rfl
  | _ :: _, 0, 0, _, h => absurd rfl h
  | _ :: _, 0, _ + 1, _, _ => rfl
  | _ :: _, _ + 1, 0, _, _ => rfl
  | x :: xs, i + 1, j + 1, v, h => by
      simp only [setAt, List.get?_cons_succ]
      exact setAt_get_ne xs i j v (fun hh => h (by rw [hh]))

theorem setAt_count {α : Type} [DecidableEq α] :
    ∀ (l : List α) (i : Nat) (v o x : α), l.get? i = some o →
    (setAt l i v).count x + (if o = x then 1 else 0)
      = l.count x + (if v = x then 1 else 0)
  | [], i, v, o, x, h => by simp at h
  | y :: xs, 0, v, o, x, h => by
      have hyo : y = o := by simpa using h
      subst hyo
      simp only [setAt, List.count_cons]
      by_cases hy : y = x <;> by_cases hv : v = x <;>
        simp [hy, hv] <;> omega
  | y :: xs, i + 1, v, o, x, h => by
      have h2 : xs.get? i = some o := by simpa using h
      have := setAt_count xs i v o x h2
      simp only [setAt, List.count_cons]
      by_cases hy : y = x <;> simp [hy] <;> omega

theorem writeBack_count :
    ∀ (ps : List (Nat × Doc)) (news : List Doc) (docs : List Doc),
    news.length = ps.length →
    (∀ pr ∈ ps, docs.get? pr.1 = some pr.2) →
    List.Pairwise (fun a b => a.1 ≠ b.1) ps →
    ∀ x, (writeBack docs (ps.map Prod.fst) news).count x +
        (ps.map Prod.snd).count x
      = docs.count x + news.count x
  | [], [], docs, _, _, _, x => by simp [writeBack]
  | [], nw :: news', docs, hlen, _, _, x => by simp at hlen
  | (i, o) :: ps', [], docs, hlen, _, _, x => by simp at hlen
  | (i, o) :: ps', nw :: news', docs, hlen, hget, hpw, x => by
      have hlen' : news'.length = ps'.length := by simpa using hlen
      have hgethead : docs.get? i = some o :=
        hget (i, o) (List.mem_cons_self _ _)
      have hget' : ∀ pr ∈ ps', (setAt docs i nw).get? pr.1 = some pr.2 := by
        intro pr hpr
        rw [setAt_get_ne docs i pr.1 nw
          ((List.pairwise_cons.mp hpw).1 pr hpr)]
        exact hget pr (List.mem_cons_of_mem _ hpr)
      have hrec := writeBack_count ps' news' (setAt docs i nw) hlen' hget'
        (List.pairwise_cons.mp hpw).2 x
      have hset := setAt_count docs i nw o x hgethead
      simp only [List.map_cons, writeBack, List.count_cons, beq_iff_eq]
      split_ifs at hset ⊢ <;> omega

theorem count_filter_notmem {α : Type} [DecidableEq α] (olds : List α)
    (docs : List α) (x : α) :
    (docs.filter (fun y => decide (y ∉ olds))).count x =
      if x ∈ olds then 0 else docs.count x := by
  induction docs with
  | nil => simp
  | cons d ds ih =>
      simp only [decide_not] at ih ⊢
      by_cases hmem : d ∈ olds
      · rw [List.filter_cons_of_neg (by simp [hmem])]
        rw [ih]
        by_cases hx : x ∈ olds
        · simp [hx]
        · have hdx : d ≠ x := fun h => hx (h ▸ hmem)
          simp [hx, List.count_cons, hdx]
      · rw [List.filter_cons_of_pos (by simp [hmem])]
        by_cases hx : x ∈ olds
        · have hdx : d ≠ x := fun h => hmem (h ▸ hx)
          simp [List.count_cons, hdx, ih, hx]
        · simp [List.count_cons, ih, hx]

theorem count_map_snd_filter (olds : List Doc)
    (idx : List (Option Value × Doc)) (x : Doc) :
    ((idx.filter (fun e => decide (e.2 ∉ olds))).map Prod.snd).count x =
      if x ∈ olds then 0 else (idx.map Prod.snd).count x := by
  induction idx with
  | nil => simp
  | cons e es ih =>
      simp only [decide_not] at ih ⊢
      by_cases hmem : e.2 ∈ olds
      · rw [List.filter_cons_of_neg (by simp [hmem])]
        rw [ih]
        by_cases hx : x ∈ olds
        · simp [hx]
        · have hdx : e.2 ≠ x := fun h => hx (h ▸ hmem)
          simp [hx, List.count_cons, hdx]
      · rw [List.filter_cons_of_pos (by simp [hmem])]
        by_cases hx : x ∈ olds
        · have hdx : e.2 ≠ x := fun h => hmem (h ▸ hx)
          simp [List.count_cons, hdx, ih, hx]
        · simp [List.count_cons, ih, hx]

/-- The invariant of a namespace carrier: the documents list is
duplicate-free, the primary index holds exactly one entry per stored
document (counts agree for every document pointer), every entry's key
is the id of its document, and the keys are pairwise distinct — this is
the formal reading of claim C6: the documents list and the primary id
index contain exactly the same documents, each document appears exactly
once in the index, and (derived below) no two distinct documents have
ids that compare equal. -/
def Core (docs : List Doc) (idx : List (Option Value × Doc)) : Prop :=
  docs.Nodup ∧
  (∀ d : Doc, (idx.map Prod.snd).count d = docs.count d) ∧
  (∀ e ∈ idx, e.1 = getId e.2) ∧
  keysNodup idx

/-- The invariant of a namespace. -/
def NsInv (n : Namespace) : Prop := Core n.documents n.primaryIndex

/-- The invariant of a catalog: every namespace satisfies NsInv. -/
def DataInv (dta : Data) : Prop := ∀ p ∈ dta.namespaces, NsInv p.2

theorem core_carrier_perm {docs docs2 : List Doc}
    {idx : List (Option Value × Doc)} (hp : docs.Perm docs2)
    (h : Core docs idx) : Core docs2 idx := by
  obtain ⟨h1, h2, h3, h4⟩ := h
  refine ⟨hp.nodup h1, ?_, h3, h4⟩
  intro d
  rw [h2 d]
  exact (hp.count_eq d)

theorem core_mem_iff {docs : List Doc} {idx : List (Option Value × Doc)}
    (h : Core docs idx) (d : Doc) :
    d ∈ docs ↔ ∃ e ∈ idx, e.2 = d := by
  obtain ⟨h1, h2, h3, h4⟩ := h
  constructor
  · intro hd
    have : 0 < (idx.map Prod.snd).count d := by
      rw [h2 d]
      exact List.count_pos_iff_mem.mpr hd
    obtain ⟨e, he, heq⟩ := List.mem_map.mp (List.count_pos_iff_mem.mp this)
    exact ⟨e, he, heq⟩
  · rintro ⟨e, he, rfl⟩
    have : 0 < (idx.map Prod.snd).count e.2 :=
      List.count_pos_iff_mem.mpr (List.mem_map.mpr ⟨e, he, rfl⟩)
    rw [h2 e.2] at this
    exact List.count_pos_iff_mem.mp this

theorem core_set {docs : List Doc} {idx idx' : List (Option Value × Doc)}
    {d : Doc} (h : Core docs idx) (hd : d ∉ docs)
    (hs : pindexSet idx d = some idx') : Core (docs ++ [d]) idx' := by
  obtain ⟨h1, h2, h3, h4⟩ := h
  have hk' : keysNodup idx' := pindexSet_keysNodup hs h4
  unfold pindexSet at hs
  split at hs
  next e hfind =>
    split at hs
    next heq =>
      exfalso
      have hmem : e.2 ∈ docs := by
        have : 0 < (idx.map Prod.snd).count e.2 :=
          List.count_pos_iff_mem.mpr
            (List.mem_map.mpr ⟨e, List.mem_of_find?_eq_some hfind, rfl⟩)
        rw [h2 e.2] at this
        exact List.count_pos_iff_mem.mp this
      rw [heq] at hmem
      exact hd hmem
    next => cases hs
  next hfind =>
    cases hs
    refine ⟨?_, ?_, ?_, hk'⟩
    · rw [List.nodup_append]
      exact ⟨h1, List.nodup_singleton d, by simpa using hd⟩
    · intro x
      simp only [List.map_cons, List.count_cons, List.count_append,
        beq_iff_eq]
      rw [h2 x]
      by_cases hx : d = x
      · subst hx
        simp
      · simp [hx, fun h : x = d => hx h.symm]
    · intro e he
      rcases List.mem_cons.mp he with rfl | he2
      · rfl
      · exact h3 e he2

theorem core_setAll {news : List Doc} :
    ∀ {docs : List Doc} {idx idx' : List (Option Value × Doc)},
    Core docs idx →
    (∀ d ∈ news, d ∉ docs) →
    List.Pairwise (fun x y : Doc => x ≠ y) news →
    pindexSetAll idx news = some idx' →
    Core (docs ++ news) idx' := by
  induction news with
  | nil =>
      intro docs idx idx' h _ _ hs
      cases hs
      simpa using h
  | cons d ds ih =>
      intro docs idx idx' h hfresh hpw hs
      unfold pindexSetAll at hs
      split at hs
      · cases hs
      next idx1 hset =>
        have h1 := core_set h (hfresh d (List.mem_cons_self _ _)) hset
        have hfresh' : ∀ x ∈ ds, x ∉ docs ++ [d] := by
          intro x hx
          rw [List.mem_append]
          rintro (hxd | hxd)
          · exact hfresh x (List.mem_cons_of_mem _ hx) hxd
          · have : d ≠ x := (List.pairwise_cons.mp hpw).1 x hx
            simp at hxd
            exact this hxd.symm
        have := ih h1 hfresh' (List.pairwise_cons.mp hpw).2 hs
        simpa using this

theorem core_deletes {docs : List Doc} {idx : List (Option Value × Doc)}
    (h : Core docs idx) (olds : List Doc) :
    Core (docs.filter (fun x => decide (x ∉ olds)))
      (pindexDeleteAll idx olds) := by
  obtain ⟨h1, h2, h3, h4⟩ := h
  have hdel : pindexDeleteAll idx olds =
      idx.filter (fun e => decide (e.2 ∉ olds)) := by
    clear h2 h4
    induction olds generalizing idx with
    | nil => simp [pindexDeleteAll]
    | cons o os ih =>
        unfold pindexDeleteAll
        have hone : pindexDelete idx o =
            idx.filter (fun e => decide (e.2 ≠ o)) := by
          unfold pindexDelete
          apply List.filter_congr
          intro e he
          by_cases heo : e.2 = o
          · simp [heo, h3 e he]
          · simp [heo]
        rw [hone]
        have h3' : ∀ e ∈ idx.filter (fun e => decide (e.2 ≠ o)),
            e.1 = getId e.2 := by
          intro e he
          exact h3 e (List.mem_of_mem_filter he)
        rw [ih h3']
        rw [List.filter_filter]
        apply List.filter_congr
        intro e _
        by_cases h1e : e.2 = o <;> by_cases h2e : e.2 ∈ os <;>
          simp [h1e, h2e]
  rw [hdel]
  refine ⟨List.Nodup.filter _ h1, ?_, ?_, ?_⟩
  · intro d
    rw [count_map_snd_filter, count_filter_notmem]
    by_cases hx : d ∈ olds <;> simp [hx, h2 d]
  · intro e he
    exact h3 e (List.mem_of_mem_filter he)
  · unfold keysNodup at h4 ⊢
    refine List.Nodup.sublist ?_ h4
    exact List.Sublist.map _ (List.filter_sublist _)

theorem filterAux_spec (q : List (String × Value)) (lim : Nat) :
    ∀ (docs : List Doc) (i got : Nat) (ps : List (Nat × Doc)),
    filterAux q lim docs i got = .ok ps →
    (ps.map Prod.snd).Sublist docs ∧
    (∀ pr ∈ ps, i ≤ pr.1 ∧ docs.get? (pr.1 - i) = some pr.2) ∧
    List.Pairwise (fun a b => a.1 < b.1) ps := by
  intro docs
  induction docs with
  | nil =>
      intro i got ps h
      cases h
      exact ⟨by simp, by simp, by simp⟩
  | cons d ds ih =>
      intro i got ps h
      unfold filterAux at h
      split at h
      · cases h
        exact ⟨by simp, by simp, by simp⟩
      · split at h
        · cases h
        · split at h
          next ps' hrec =>
            cases h
            obtain ⟨hsub, hget, hpw⟩ := ih (i + 1) (got + 1) ps' hrec
            refine ⟨?_, ?_, ?_⟩
            · simpa using List.Sublist.cons₂ d hsub
            · intro pr hpr
              rcases List.mem_cons.mp hpr with hpr1 | hpr'
              · rw [hpr1]
                exact ⟨Nat.le_refl _, by simp⟩
              · obtain ⟨hle, hgt⟩ := hget pr hpr'
                refine ⟨by omega, ?_⟩
                have heq : pr.1 - i = (pr.1 - (i + 1)) + 1 := by omega
                rw [heq]
                simpa using hgt
            · refine List.Pairwise.cons ?_ hpw
              intro pr hpr
              have := (hget pr hpr).1
              simp only
              omega
          next hrec => cases h
        · obtain ⟨hsub, hget, hpw⟩ := ih (i + 1) got ps h
          refine ⟨List.Sublist.cons d hsub, ?_, hpw⟩
          intro pr hpr
          obtain ⟨hle, hgt⟩ := hget pr hpr
          refine ⟨by omega, ?_⟩
          have heq : pr.1 - i = (pr.1 - (i + 1)) + 1 := by omega
          rw [heq]
          simpa using hgt

theorem filterDocs_spec {docs : List Doc} {query : Value} {lim : Nat}
    {ps : List (Nat × Doc)} (h : FilterDocs docs query lim = .ok ps) :
    (ps.map Prod.snd).Sublist docs ∧
    (∀ pr ∈ ps, docs.get? pr.1 = some pr.2) ∧
    List.Pairwise (fun a b => a.1 < b.1) ps := by
  unfold FilterDocs at h
  split at h
  next q =>
    obtain ⟨h1, h2, h3⟩ := filterAux_spec q lim docs 0 0 ps h
    exact ⟨h1, fun pr hpr => by simpa using (h2 pr hpr).2, h3⟩
  · cases h

theorem cloneList_addr : ∀ (l : List Doc) (a : Nat),
    (CloneList a l).map Doc.addr =
      (List.range l.length).map (fun k => a + k) := by
  intro l
  induction l with
  | nil => intro a; simp [CloneList]
  | cons d ds ih =>
      intro a
      simp only [CloneList, List.map_cons, List.length_cons,
        List.range_succ_eq_map, List.map_map]
      rw [ih (a + 1)]
      refine List.cons_eq_cons.mpr ⟨by omega, ?_⟩
      apply List.map_congr_left
      intro k _
      simp [Function.comp]
      omega
  
theorem updateList_addr : ∀ {l l' : List Doc} {u : Value},
    UpdateList l u = .ok l' → l'.map Doc.addr = l.map Doc.addr := by
  intro l
  induction l with
  | nil =>
      intro l' u h
      cases h
      rfl
  | cons d ds ih =>
      intro l' u h
      unfold UpdateList at h
      split at h
      · split at h
        next c2 hc =>
          split at h
          next ds2 hds =>
            cases h
            simp only [List.map_cons]
            rw [ih hds]
          next => cases h
        next => cases h
      · cases h

theorem newsFacts {olds news : List Doc} {u : Value} {a : Nat}
    (h : UpdateList (CloneList a olds) u = .ok news) :
    (∀ d ∈ news, a ≤ d.addr) ∧ news.Nodup ∧ news.length = olds.length := by
  have haddr : news.map Doc.addr =
      (List.range olds.length).map (fun k => a + k) := by
    rw [updateList_addr h, cloneList_addr]
  refine ⟨?_, ?_, ?_⟩
  · intro d hd
    have hmem : d.addr ∈ news.map Doc.addr := List.mem_map_of_mem _ hd
    rw [haddr] at hmem
    obtain ⟨k, _, hk⟩ := List.mem_map.mp hmem
    omega
  · have hnd : (news.map Doc.addr).Nodup := by
      rw [haddr]
      refine List.Nodup.map ?_ (List.nodup_range olds.length)
      intro x y hxy
      simp only at hxy
      omega
    exact hnd.of_map _
  · have := congrArg List.length haddr
    simpa using this

theorem engineReplace_post (store : Data → Bool) (s : EngineState)
    (ns : String) (query : Value) (repl : Doc) :
    (engineReplace store s ns query repl).2 = s ∨
    ∃ n i d rest idx2,
      lookupNs (s.heap s.cur) ns = some n ∧
      FilterDocs n.documents query 1 = .ok ((i, d) :: rest) ∧
      pindexSet (pindexDelete n.primaryIndex d) repl = some idx2 ∧
      (engineReplace store s ns query repl).2 =
        ⟨updateHeap s.heap s.next (setNs (s.heap s.cur) ns
          { n with primaryIndex := idx2,
                   documents := setAt n.documents i repl }),
         s.next, s.next + 1⟩ := by
  unfold engineReplace
  dsimp only
  cases hlk : lookupNs (s.heap s.cur) ns with
  | none => exact Or.inl rfl
  | some n =>
      dsimp only
      cases hid : (getId repl).isNone with
      | true => exact Or.inl rfl
      | false =>
          simp only [Bool.false_eq_true, if_false]
          cases hf : FilterDocs n.documents query 1 with
          | error e => exact Or.inl rfl
          | ok ps =>
              cases ps with
              | nil => exact Or.inl rfl
              | cons pr rest =>
                  obtain ⟨i, d⟩ := pr
                  dsimp only
                  cases hset : pindexSet (pindexDelete n.primaryIndex d)
                      repl with
                  | none => exact Or.inl rfl
                  | some idx2 =>
                      dsimp only
                      cases hst : store (setNs (s.heap s.cur) ns
                          { n with primaryIndex := idx2,
                                   documents := setAt n.documents i repl })
                        with
                      | false =>
                          simp only [Bool.false_eq_true, if_false]
                          exact Or.inl trivial
                      | true =>
                          simp only [if_true]
                          exact Or.inr ⟨n, i, d, rest, idx2, rfl, hf, hset,
                            rfl⟩

theorem engineUpdate_post (store : Data → Bool) (s : EngineState)
    (ns : String) (query update : Value) (limit : Nat) :
    (engineUpdate store s ns query update limit).2 = s ∨
    ∃ n i0 d0 ps news idx2,
      lookupNs (s.heap s.cur) ns = some n ∧
      FilterDocs n.documents query limit = .ok ((i0, d0) :: ps) ∧
      UpdateList (CloneList s.next (((i0, d0) :: ps).map Prod.snd)) update
        = .ok news ∧
      pindexSetAll
        (pindexDeleteAll n.primaryIndex (((i0, d0) :: ps).map Prod.snd))
        news = some idx2 ∧
      (engineUpdate store s ns query update limit).2 =
        ⟨updateHeap s.heap
          (s.next + (((i0, d0) :: ps).map Prod.snd).length)
          (setNs (s.heap s.cur) ns
            { n with primaryIndex := idx2,
                     documents := writeBack n.documents
                       (((i0, d0) :: ps).map Prod.fst) news }),
         s.next + (((i0, d0) :: ps).map Prod.snd).length,
         s.next + (((i0, d0) :: ps).map Prod.snd).length + 1⟩ := by
  unfold engineUpdate
  dsimp only
  cases hlk : lookupNs (s.heap s.cur) ns with
  | none => exact Or.inl rfl
  | some n =>
      dsimp only
      cases hf : FilterDocs n.documents query limit with
      | error e => exact Or.inl rfl
      | ok ps =>
          cases ps with
          | nil => exact Or.inl rfl
          | cons pr rest =>
              obtain ⟨i0, d0⟩ := pr
              dsimp only
              cases hu : UpdateList
                  (CloneList s.next (((i0, d0) :: rest).map Prod.snd))
                  update with
              | error e => exact Or.inl rfl
              | ok news =>
                  dsimp only
                  cases hset : pindexSetAll
                      (pindexDeleteAll n.primaryIndex
                        (((i0, d0) :: rest).map Prod.snd)) news with
                  | none => exact Or.inl rfl
                  | some idx2 =>
                      dsimp only
                      cases hst : store (setNs (s.heap s.cur) ns
                          { n with primaryIndex := idx2,
                                   documents := writeBack n.documents
                                     (((i0, d0) :: rest).map Prod.fst)
                                     news }) with
                      | false =>
                          simp only [Bool.false_eq_true, if_false]
                          exact Or.inl trivial
                      | true =>
                          simp only [if_true]
                          exact Or.inr ⟨n, i0, d0, rest, news, idx2, rfl,
                            hf, hu, hset, rfl⟩

theorem engineDelete_post (store : Data → Bool) (s : EngineState)
    (ns : String) (query : Value) (limit : Nat) :
    (engineDelete store s ns query limit).2 = s ∨
    ∃ n ps,
      lookupNs (s.heap s.cur) ns = some n ∧
      FilterDocs n.documents query limit = .ok ps ∧
      (engineDelete store s ns query limit).2 =
        ⟨updateHeap s.heap s.next (setNs (s.heap s.cur) ns
          { n with documents := Difference n.documents (ps.map Prod.snd),
                   primaryIndex :=
                     pindexDeleteAll n.primaryIndex (ps.map Prod.snd) }),
         s.next, s.next + 1⟩ := by
  unfold engineDelete
  dsimp only
  cases hlk : lookupNs (s.heap s.cur) ns with
  | none => exact Or.inl rfl
  | some n =>
      dsimp only
      cases hf : FilterDocs n.documents query limit with
      | error e => exact Or.inl rfl
      | ok ps =>
          dsimp only
          cases hst : store (setNs (s.heap s.cur) ns
              { n with documents :=
                         Difference n.documents (ps.map Prod.snd),
                       primaryIndex :=
                         pindexDeleteAll n.primaryIndex
                           (ps.map Prod.snd) }) with
          | false =>
              simp only [Bool.false_eq_true, if_false]
              exact Or.inl trivial
          | true =>
              simp only [if_true]
              exact Or.inr ⟨n, ps, rfl, hf, rfl⟩

/-- The catalog value held by the published pointer e.data. -/
def published (st : EngineState) : Data := st.heap st.cur

theorem updateHeap_same (h : Nat → Data) (a : Nat) (v : Data) :
    updateHeap h a v a = v := by
  unfold updateHeap
  simp

/-- Every document stored in the catalog has an address below the
bound (the next fresh pointer of the engine state). -/
def AddrBound (dta : Data) (a : Nat) : Prop :=
  ∀ p ∈ dta.namespaces, ∀ d ∈ p.2.documents, d.addr < a

/-- No two distinct documents of a namespace have ids that compare
equal. -/
def UniqueIds (dta : Data) : Prop :=
  ∀ p ∈ dta.namespaces, ∀ d ∈ p.2.documents, ∀ e ∈ p.2.documents,
    d ≠ e → cmpOpt (getId d) (getId e) ≠ Ordering.eq

theorem core_unique_ids {docs : List Doc}
    {idx : List (Option Value × Doc)} (h : Core docs idx) :
    ∀ d ∈ docs, ∀ e ∈ docs, d ≠ e →
      cmpOpt (getId d) (getId e) ≠ Ordering.eq := by
  intro d hd e he hne heq
  rw [cmpOpt_eq_iff] at heq
  obtain ⟨ed, hed, hed2⟩ := (core_mem_iff h d).mp hd
  obtain ⟨ee, hee, hee2⟩ := (core_mem_iff h e).mp he
  obtain ⟨h1, h2, h3, h4⟩ := h
  have hk : ed.1 = ee.1 := by
    rw [h3 ed hed, h3 ee hee, hed2, hee2, heq]
  have hdd := keysNodup_entry_unique h4 ed hed ee hee hk
  apply hne
  rw [← hed2, ← hee2, hdd]

theorem dataInv_uniqueIds {dta : Data} (h : DataInv dta) :
    UniqueIds dta := by
  intro p hp
  exact core_unique_ids (h p hp)

theorem mem_setNs {dta : Data} {ns : String} {n : Namespace}
    {p : String × Namespace} (hp : p ∈ (setNs dta ns n).namespaces) :
    p = (ns, n) ∨ p ∈ dta.namespaces := by
  unfold setNs at hp
  split at hp
  · simp only at hp
    obtain ⟨q, hq, hqe⟩ := List.mem_map.mp hp
    by_cases hqn : q.1 = ns
    · left
      rw [← hqe, if_pos hqn]
    · right
      rw [← hqe, if_neg hqn]
      exact hq
  · rcases List.mem_append.mp hp with h1 | h1
    · exact Or.inr h1
    · left
      simpa using h1

theorem dataInv_setNs {dta : Data} {ns : String} {n : Namespace}
    (h : DataInv dta) (hn : NsInv n) : DataInv (setNs dta ns n) := by
  intro p hp
  rcases mem_setNs hp with rfl | hp2
  · exact hn
  · exact h p hp2

theorem lookupNs_mem {dta : Data} {ns : String} {n : Namespace}
    (h : lookupNs dta ns = some n) : ∃ p ∈ dta.namespaces, p.2 = n := by
  unfold lookupNs at h
  split at h
  next p hfind =>
    cases h
    exact ⟨p, List.mem_of_find?_eq_some hfind, rfl⟩
  · cases h

theorem pairwise_ne_of_addr_nodup {l : List Doc}
    (h : (l.map Doc.addr).Nodup) :
    List.Pairwise (fun x y : Doc => x ≠ y) l :=
  List.Nodup.of_map _ h

theorem nsInv_new (ns : String) : NsInv (NewNamespace ns) :=
  ⟨List.nodup_nil, fun _ => rfl, fun e he => absurd he (List.not_mem_nil e),
    List.nodup_nil⟩

theorem core_addDocs : ∀ {list : List Doc} {n n1 : Namespace},
    addDocs n list = some n1 →
    Core n.documents n.primaryIndex →
    (∀ d ∈ list, d ∉ n.documents) →
    List.Pairwise (fun x y : Doc => x ≠ y) list →
    Core n1.documents n1.primaryIndex := by
  intro list
  induction list with
  | nil =>
      intro n n1 h hc _ _
      cases h
      exact hc
  | cons d ds ih =>
      intro n n1 h hc hfresh hpw
      unfold addDocs at h
      split at h
      · cases h
      next idx hset =>
        have h1 : Core (n.documents ++ [d]) idx :=
          core_set hc (hfresh d (List.mem_cons_self _ _)) hset
        refine ih h h1 ?_ (List.pairwise_cons.mp hpw).2
        intro x hx
        rw [List.mem_append]
        rintro (hxd | hxd)
        · exact hfresh x (List.mem_cons_of_mem _ hx) hxd
        · have hne : d ≠ x := (List.pairwise_cons.mp hpw).1 x hx
          simp at hxd
          exact hne hxd.symm

theorem setAt_perm {docs : List Doc} {i : Nat} {d r : Doc}
    (hnd : docs.Nodup) (hget : docs.get? i = some d) :
    (setAt docs i r).Perm
      (docs.filter (fun x => decide (x ∉ [d])) ++ [r]) := by
  rw [List.perm_iff_count]
  intro x
  have hset := setAt_count docs i r d x hget
  have hone : docs.count d = 1 :=
    List.count_eq_one_of_mem hnd (List.get?_mem hget)
  rw [List.count_append, count_filter_notmem]
  simp only [List.count_cons, List.count_nil, List.mem_singleton,
    beq_iff_eq]
  rcases eq_or_ne x d with rfl | hx
  · rw [if_pos rfl] at hset
    rw [if_pos rfl]
    by_cases hr : r = x
    · rw [if_pos hr] at hset ⊢
      omega
    · rw [if_neg hr] at hset ⊢
      omega
  · rw [if_neg (fun h : d = x => hx h.symm)] at hset
    rw [if_neg hx]
    by_cases hr : r = x
    · rw [if_pos hr] at hset ⊢
      omega
    · rw [if_neg hr] at hset ⊢
      omega

theorem writeBack_perm {docs : List Doc} {ps : List (Nat × Doc)}
    {news : List Doc}
    (hnd : docs.Nodup)
    (hsub : (ps.map Prod.snd).Sublist docs)
    (hlen : news.length = ps.length)
    (hget : ∀ pr ∈ ps, docs.get? pr.1 = some pr.2)
    (hpw : List.Pairwise (fun a b : Nat × Doc => a.1 < b.1) ps) :
    (writeBack docs (ps.map Prod.fst) news).Perm
      (docs.filter (fun x => decide (x ∉ ps.map Prod.snd)) ++ news) := by
  rw [List.perm_iff_count]
  intro x
  have hpw2 : List.Pairwise (fun a b : Nat × Doc => a.1 ≠ b.1) ps :=
    hpw.imp (fun h => Nat.ne_of_lt h)
  have hwb := writeBack_count ps news docs hlen hget hpw2 x
  rw [List.count_append, count_filter_notmem]
  by_cases hx : x ∈ ps.map Prod.snd
  · rw [if_pos hx]
    have hxdocs : x ∈ docs := hsub.mem hx
    have hone : docs.count x = 1 := List.count_eq_one_of_mem hnd hxdocs
    have holds : (ps.map Prod.snd).count x = 1 :=
      List.count_eq_one_of_mem (hsub.nodup hnd) hx
    omega
  · rw [if_neg hx]
    have holds0 : (ps.map Prod.snd).count x = 0 :=
      List.count_eq_zero.mpr hx
    omega

theorem dataInv_engineInsert (store : Data → Bool) (s : EngineState)
    (ns : String) (list : List Doc)
    (hinv : DataInv (published s))
    (hbound : AddrBound (published s) s.next)
    (hfresh : ∀ d ∈ list, s.next ≤ d.addr)
    (hnd : (list.map Doc.addr).Nodup) :
    DataInv (published (engineInsert store s ns list).2) := by
  rcases engineInsert_cases store s ns list with hok | hsame
  · obtain ⟨ns1, hadd, hpost⟩ := engineInsert_ok_shape store s ns list hok
    rw [hpost]
    show DataInv
      (updateHeap s.heap s.next (setNs (s.heap s.cur) ns ns1) s.next)
    rw [updateHeap_same]
    refine dataInv_setNs hinv ?_
    cases hlk : lookupNs (s.heap s.cur) ns with
    | none =>
        rw [hlk] at hadd
        have hadd2 : addDocs (NewNamespace ns) list = some ns1 := hadd
        exact core_addDocs hadd2 (nsInv_new ns)
          (fun d _ hd => (List.not_mem_nil d) hd)
          (pairwise_ne_of_addr_nodup hnd)
    | some n =>
        rw [hlk] at hadd
        have hadd2 : addDocs n list = some ns1 := hadd
        obtain ⟨p, hp, hpn⟩ := lookupNs_mem hlk
        have hni : NsInv n := by
          have := hinv p hp
          rwa [hpn] at this
        refine core_addDocs hadd2 hni ?_ (pairwise_ne_of_addr_nodup hnd)
        intro d hd hdn
        have h1 := hbound p hp d (by rw [hpn]; exact hdn)
        have h2 := hfresh d hd
        omega
  · rw [hsame]
    exact hinv

theorem dataInv_engineReplace (store : Data → Bool) (s : EngineState)
    (ns : String) (query : Value) (repl : Doc)
    (hinv : DataInv (published s))
    (hbound : AddrBound (published s) s.next)
    (hrepl : s.next ≤ repl.addr) :
    DataInv (published (engineReplace store s ns query repl).2) := by
  rcases engineReplace_post store s ns query repl with hsame |
    ⟨n, i, d, rest, idx2, hlk, hf, hset, hpost⟩
  · rw [hsame]
    exact hinv
  · rw [hpost]
    show DataInv (updateHeap s.heap s.next (setNs (s.heap s.cur) ns
      { n with primaryIndex := idx2,
               documents := setAt n.documents i repl }) s.next)
    rw [updateHeap_same]
    obtain ⟨p, hp, hpn⟩ := lookupNs_mem hlk
    have hni : NsInv n := by
      have := hinv p hp
      rwa [hpn] at this
    refine dataInv_setNs hinv ?_
    obtain ⟨hsub, hget, hpw⟩ := filterDocs_spec hf
    have hgetd : n.documents.get? i = some d :=
      hget (i, d) (List.mem_cons_self _ _)
    have hcore1 : Core (n.documents.filter (fun x => decide (x ∉ [d])))
        (pindexDelete n.primaryIndex d) := core_deletes hni [d]
    have hfreshr : repl ∉
        n.documents.filter (fun x => decide (x ∉ [d])) := by
      intro hmem
      have hin : repl ∈ n.documents := List.mem_of_mem_filter hmem
      have := hbound p hp repl (by rw [hpn]; exact hin)
      omega
    have hcore2 :
        Core (n.documents.filter (fun x => decide (x ∉ [d])) ++ [repl])
          idx2 := core_set hcore1 hfreshr hset
    have hperm := setAt_perm (r := repl) hni.1 hgetd
    exact core_carrier_perm hperm.symm hcore2

theorem dataInv_engineUpdate (store : Data → Bool) (s : EngineState)
    (ns : String) (query update : Value) (limit : Nat)
    (hinv : DataInv (published s))
    (hbound : AddrBound (published s) s.next) :
    DataInv (published (engineUpdate store s ns query update limit).2) := by
  rcases engineUpdate_post store s ns query update limit with hsame |
    ⟨n, i0, d0, ps, news, idx2, hlk, hf, hu, hset, hpost⟩
  · rw [hsame]
    exact hinv
  · rw [hpost]
    show DataInv (updateHeap s.heap
      (s.next + (((i0, d0) :: ps).map Prod.snd).length)
      (setNs (s.heap s.cur) ns
        { n with primaryIndex := idx2,
                 documents := writeBack n.documents
                   (((i0, d0) :: ps).map Prod.fst) news })
      (s.next + (((i0, d0) :: ps).map Prod.snd).length))
    rw [updateHeap_same]
    obtain ⟨p, hp, hpn⟩ := lookupNs_mem hlk
    have hni : NsInv n := by
      have := hinv p hp
      rwa [hpn] at this
    refine dataInv_setNs hinv ?_
    obtain ⟨hsub, hget, hpw⟩ := filterDocs_spec hf
    obtain ⟨hfreshn, hnewnd, hlen⟩ := newsFacts hu
    have hlen2 : news.length = ((i0, d0) :: ps).length := by
      rw [hlen]
      simp
    have hcore1 := core_deletes hni (((i0, d0) :: ps).map Prod.snd)
    have hfreshf : ∀ x ∈ news, x ∉ n.documents.filter
        (fun y => decide (y ∉ ((i0, d0) :: ps).map Prod.snd)) := by
      intro x hx hmem
      have hin : x ∈ n.documents := List.mem_of_mem_filter hmem
      have := hbound p hp x (by rw [hpn]; exact hin)
      have := hfreshn x hx
      omega
    have hcore2 := core_setAll hcore1 hfreshf hnewnd hset
    have hperm := writeBack_perm hni.1 hsub hlen2 hget hpw
    exact core_carrier_perm hperm.symm hcore2

theorem dataInv_engineDelete (store : Data → Bool) (s : EngineState)
    (ns : String) (query : Value) (limit : Nat)
    (hinv : DataInv (published s)) :
    DataInv (published (engineDelete store s ns query limit).2) := by
  rcases engineDelete_post store s ns query limit with hsame |
    ⟨n, ps, hlk, hf, hpost⟩
  · rw [hsame]
    exact hinv
  · rw [hpost]
    show DataInv (updateHeap s.heap s.next (setNs (s.heap s.cur) ns
      { n with documents := Difference n.documents (ps.map Prod.snd),
               primaryIndex :=
                 pindexDeleteAll n.primaryIndex (ps.map Prod.snd) })
      s.next)
    rw [updateHeap_same]
    obtain ⟨p, hp, hpn⟩ := lookupNs_mem hlk
    have hni : NsInv n := by
      have := hinv p hp
      rwa [hpn] at this
    refine dataInv_setNs hinv ?_
    obtain ⟨hsub, hget, hpw⟩ := filterDocs_spec hf
    have hdiff :=
      (difference_spec_aux n.documents (ps.map Prod.snd) hsub hni.1).1
    show Core (Difference n.documents (ps.map Prod.snd))
      (pindexDeleteAll n.primaryIndex (ps.map Prod.snd))
    rw [hdiff]
    exact core_deletes hni (ps.map Prod.snd)

/-- C6: every engine operation — insert, replace, update and delete —
preserves the namespace invariant of the published catalog: given that
every namespace satisfies it before the call (documents list free of
duplicates, primary index holding exactly one entry per stored document
with its id as key, keys pairwise distinct) and that the documents
handed to insert and the replacement handed to replace are fresh
pointers (addresses at or above the engine's next-fresh bound, pairwise
distinct), the catalog published after each operation again satisfies
the invariant, and in particular the documents list and the primary id
index of every namespace contain exactly the same documents, each
document appears exactly once in the index, and no two distinct
documents of a namespace have ids that compare equal. -/
theorem c6_ops_preserve_invariant
    (store : Data → Bool) (s : EngineState) (ns : String)
    (query upd : Value) (limit : Nat) (list : List Doc) (repl : Doc)
    (hinv : DataInv (published s))
    (hbound : AddrBound (published s) s.next)
    (hfresh : ∀ d ∈ list, s.next ≤ d.addr)
    (hnd : (list.map Doc.addr).Nodup)
    (hrepl : s.next ≤ repl.addr) :
    (DataInv (published (engineInsert store s ns list).2) ∧
      UniqueIds (published (engineInsert store s ns list).2)) ∧
    (DataInv (published (engineReplace store s ns query repl).2) ∧
      UniqueIds (published (engineReplace store s ns query repl).2)) ∧
    (DataInv (published (engineUpdate store s ns query upd limit).2) ∧
      UniqueIds (published (engineUpdate store s ns query upd limit).2)) ∧
    (DataInv (published (engineDelete store s ns query limit).2) ∧
      UniqueIds (published (engineDelete store s ns query limit).2)) := by
  have h1 := dataInv_engineInsert store s ns list hinv hbound hfresh hnd
  have h2 := dataInv_engineReplace store s ns query repl hinv hbound hrepl
  have h3 := dataInv_engineUpdate store s ns query upd limit hinv hbound
  have h4 := dataInv_engineDelete store s ns query limit hinv
  exact ⟨⟨h1, dataInv_uniqueIds h1⟩, ⟨h2, dataInv_uniqueIds h2⟩,
    ⟨h3, dataInv_uniqueIds h3⟩, ⟨h4, dataInv_uniqueIds h4⟩⟩

/-- Witness for C6 at a concrete engine state: the empty catalog with
one empty namespace, one fresh inserted document and one fresh
replacement. -/
theorem c6_witness :
    (DataInv (published
        (engineInsert storeYes stateEmpty ("db.c") [doc8]).2) ∧
      UniqueIds (published
        (engineInsert storeYes stateEmpty ("db.c") [doc8]).2)) ∧
    (DataInv (published
        (engineReplace storeYes stateEmpty ("db.c") query7 repl7).2) ∧
      UniqueIds (published
        (engineReplace storeYes stateEmpty ("db.c") query7 repl7).2)) ∧
    (DataInv (published
        (engineUpdate storeYes stateEmpty ("db.c") query7 setY 1).2) ∧
      UniqueIds (published
        (engineUpdate storeYes stateEmpty ("db.c") query7 setY 1).2)) ∧
    (DataInv (published
        (engineDelete storeYes stateEmpty ("db.c") query7 1).2) ∧
      UniqueIds (published
        (engineDelete storeYes stateEmpty ("db.c") query7 1).2)) := by
  have hinv : DataInv (published stateEmpty) := by
    intro p hp
    have hpe : p = (("db.c"), nsEmpty) := by
      simpa [published, stateEmpty, dataEmpty] using hp
    subst hpe
    exact ⟨List.nodup_nil, fun _ => rfl,
      fun e he => absurd he (List.not_mem_nil e), List.nodup_nil⟩
  have hbound : AddrBound (published stateEmpty) stateEmpty.next := by
    intro p hp d hd
    have hpe : p = (("db.c"), nsEmpty) := by
      simpa [published, stateEmpty, dataEmpty] using hp
    subst hpe
    exact absurd hd (List.not_mem_nil d)
  exact c6_ops_preserve_invariant storeYes stateEmpty ("db.c") query7
    setY 1 [doc8] repl7 hinv hbound (by decide) (by decide) (by decide)
